import Mathlib

/-!
Verification of the Cerebot Discord bridge (`cerebot/discord.py`) against its
natural-language specification.  The Python source is shallowly embedded:
pure fragments become Lean functions, stateful methods become explicit
state-passing functions, coroutine side effects become explicit event lists,
and fallible code returns `Except`.  Python `float` timestamps are modelled
as rationals (`ℚ`), Python strings as `String`/`List Char`.
-/

namespace Cerebot

/-! ## Rate limiter (`DiscordManager.handle_timeout`)

The manager state relevant here is `conf["command_period"]`,
`conf["command_limit"]` and the mutable list `self.message_times`.

Python source:
```
def handle_timeout(self):
    current_time = time.time()
    for timestamp in list(self.message_times):
        if current_time - timestamp >= self.conf["command_period"]:
            self.message_times.remove(timestamp)
    if len(self.message_times) >= self.conf["command_limit"]:
        return True
    self.message_times.append(current_time)
    return False
```
Iterating over a copy while `remove`-ing each listed timestamp whose age is
`≥ command_period` removes exactly the occurrences failing the age test,
i.e. it filters the list; a rejected call (return `True`) does not append.
-/

structure RateConf where
  command_period : ℚ
  command_limit : ℕ
deriving DecidableEq, Repr

/-- `DiscordManager.handle_timeout`, with the mutable `message_times` list
threaded explicitly: returns the Python return value (`true` = command
rejected) together with the new `message_times`. -/
def handle_timeout (conf : RateConf) (message_times : List ℚ) (current_time : ℚ) :
    Bool × List ℚ :=
  let pruned := message_times.filter (fun t => current_time - t < conf.command_period)
  if conf.command_limit ≤ pruned.length then (true, pruned)
  else (false, pruned ++ [current_time])

/-- Iterate `handle_timeout` over a list of call times, collecting the
returned flags (in call order) and the final `message_times`. -/
def runCalls (conf : RateConf) : List ℚ → List ℚ → List Bool × List ℚ
  | times, [] => ([], times)
  | times, c :: cs =>
    let r := handle_timeout conf times c
    let rest := runCalls conf r.2 cs
    (r.1 :: rest.1, rest.2)

/-- Number of accepted calls: `handle_timeout` returns `false` on accept. -/
def acceptedCount (results : List Bool) : ℕ := results.count false

/-! ## Python runtime errors -/

/-- Python exceptions raised by slips in the source, modelled explicitly. -/
inductive PyError
  | nameError (n : String)
  | keyError (k : String)
  | typeError (m : String)
deriving DecidableEq, Repr

/-! ## Channel-level timeout handler (`DiscordChannel.handle_timeout`)

Python source:
```
def handle_timeout(self):
    if self.manager.handle_timeout():
        _log.info("%s: Command ignored due to command limit (channel: %s, "
                  "requester: %s): %s", self.manager.service,
                  self.describe(), sender, message)
        return True
    return False
```
On the rejection path the log call's arguments are evaluated first; the
names `sender` and `message` are bound nowhere in the method or module, so
evaluating `sender` raises `NameError` before anything is logged. -/
def channel_handle_timeout (conf : RateConf) (times : List ℚ) (now : ℚ) :
    Except PyError (Bool × List ℚ) :=
  let r := handle_timeout conf times now
  if r.1 then Except.error (PyError.nameError "sender")
  else Except.ok (false, r.2)

/-! ## Disconnect (`DiscordManager.disconnect`)

Python source:
```
def disconnect(self, shutdown=False):
    if self.ping_task and not self.ping_task.done():
        self.ping_task.cancel()
    if self.conf.get("fake_connect") or self.is_closed:
        return
    try:
        yield from self.close()
    except Exception as e:
        self.log_exception(e, "Error when disconnecting")
    self.shutdown = shutdown
```
-/

/-- The keepalive task handle: only whether it is finished matters here. -/
structure PingTask where
  done : Bool
deriving DecidableEq, Repr

/-- The `DiscordManager` state touched by `disconnect`. -/
structure DiscordState where
  ping_task : Option PingTask
  fake_connect : Bool
  is_closed : Bool
  shutdown : Bool
deriving DecidableEq, Repr

/-- Observable side effects of a `disconnect` run. -/
inductive DisconnectEvent
  | cancelPing
  | closeCalled
  | logError (msg : String)
deriving DecidableEq, Repr

/-- `DiscordManager.disconnect`.  The backend call `self.close()` is an
external collaborator; its outcome is supplied as `closeResult`.  The
function is total: a failing `close` is caught and logged, never
propagated. -/
def disconnect (st : DiscordState) (closeResult : Except String Unit)
    (shutdownArg : Bool) : DiscordState × List DisconnectEvent :=
  let cancelEvs : List DisconnectEvent :=
    match st.ping_task with
    | some t => if !t.done then [DisconnectEvent.cancelPing] else []
    | none => []
  if st.fake_connect || st.is_closed then (st, cancelEvs)
  else
    match closeResult with
    | Except.ok _ =>
      ({ st with shutdown := shutdownArg }, cancelEvs ++ [DisconnectEvent.closeCalled])
    | Except.error e =>
      ({ st with shutdown := shutdownArg },
        cancelEvs ++ [DisconnectEvent.closeCalled,
          DisconnectEvent.logError ("Error when disconnecting: " ++ e)])

/-! ## Keepalive loop (`DiscordManager.start_ping`)

Python source:
```
def start_ping(self):
    while True:
        if self.is_closed:
            return
        try:
            yield from self.ws.ping()
        except asyncio.CancelledError:
            return
        except Exception as e:
            self.log_exception(e, "Unable to send ping")
            ensure_future(self.disconnect())
            return
        yield from asyncio.sleep(10)
```
Each loop iteration reads the current `is_closed` flag and the outcome of
one `ws.ping()` call; the loop is driven by that externally-supplied trace.
-/

/-- Outcome of one `ws.ping()` call. -/
inductive PingOutcome
  | success
  | cancelled
  | failure (msg : String)
deriving DecidableEq, Repr

/-- The environment of one keepalive iteration: the `is_closed` flag seen at
the top of the loop and, if the loop pings, the outcome of that ping. -/
structure PingStep where
  is_closed : Bool
  outcome : PingOutcome
deriving DecidableEq, Repr

/-- Observable events of the keepalive loop. -/
inductive PingEvent
  | pinged
  | slept
  | logged (msg : String)
  | disconnectRequested
deriving DecidableEq, Repr

/-- `DiscordManager.start_ping`, run against a finite trace of iteration
environments; returns the emitted events until the loop exits (or the trace
is exhausted while the loop is still running). -/
def start_ping : List PingStep → List PingEvent
  | [] => []
  | step :: rest =>
    if step.is_closed then []
    else
      match step.outcome with
      | PingOutcome.success => PingEvent.pinged :: PingEvent.slept :: start_ping rest
      | PingOutcome.cancelled => [PingEvent.pinged]
      | PingOutcome.failure m =>
        [PingEvent.pinged, PingEvent.logged ("Unable to send ping: " ++ m),
         PingEvent.disconnectRequested]

/-! ## Command table (`bot_commands`) and `DiscordChannel.bot_command_allowed`

Python source of the permission hook:
```
def bot_command_allowed(self, user, command):
    entry = self.manager.bot_commands[command]
    if (entry["source_restriction"] == "channel"
        and self.channel.is_private):
        return (False, "This command must be run in a channel.")
    return super().bot_command_allowed(user, command)
```
`super().bot_command_allowed` lives in the external `beem` framework and is
supplied as a parameter. -/

/-- One element of an `args` pattern list in the command table. -/
structure BotCommandArg where
  pattern : String
  description : String
  required : Bool
deriving DecidableEq, Repr

/-- One command-table entry; the handler is referenced by its Python name. -/
structure BotCommandEntry where
  args : Option (List BotCommandArg)
  single_user_allowed : Bool
  source_restriction : Option String
  handler : String
deriving DecidableEq, Repr

/-- The `bot_commands` table, verbatim from the module tail. -/
def bot_commands : List (String × BotCommandEntry) :=
  [ ("version", ⟨none, true, some "admin", "bot_version_command"⟩),
    ("debugmode", ⟨some [⟨"(on|off)$", "on|off", false⟩], true, some "admin",
      "bot_debugmode_command"⟩),
    ("bothelp", ⟨none, true, none, "bot_help_command"⟩),
    ("listroles", ⟨none, true, some "channel", "bot_listroles_command"⟩),
    ("addrole", ⟨some [⟨".+$", "ROLE", true⟩], true, some "channel",
      "bot_addrole_command"⟩),
    ("removerole", ⟨some [⟨".+$", "ROLE", true⟩], true, some "channel",
      "bot_removerole_command"⟩),
    ("glasses", ⟨none, true, none, "bot_glasses_command"⟩),
    ("deal", ⟨none, true, none, "bot_deal_command"⟩),
    ("dance", ⟨none, true, none, "bot_dance_command"⟩),
    ("zxcdance", ⟨none, true, none, "bot_zxcdance_command"⟩),
    ("say", ⟨some [⟨".+$", "SERVER", true⟩, ⟨".+$", "CHANNEL", true⟩,
      ⟨".+$", "MESSAGE", true⟩], true, none, "bot_say_command"⟩) ]

/-- Dictionary lookup `self.manager.bot_commands[command]`. -/
def lookupCommand (command : String) : Option BotCommandEntry :=
  (bot_commands.find? (fun e => e.1 == command)).map (fun e => e.2)

/-- `DiscordChannel.bot_command_allowed`.  `superCheck` is the generic
permission check inherited from the external framework (`ChatWatcher`);
`is_private` is `self.channel.is_private`.  A missing dictionary key raises
`KeyError` as in Python. -/
def bot_command_allowed (superCheck : String → String → Bool × String)
    (is_private : Bool) (user command : String) :
    Except PyError (Bool × String) :=
  match lookupCommand command with
  | none => Except.error (PyError.keyError command)
  | some entry =>
    if entry.source_restriction == some "channel" && is_private then
      Except.ok (false, "This command must be run in a channel.")
    else
      Except.ok (superCheck user command)

/-! ## Vanity roles (`DiscordChannel.get_vanity_roles`)

Python source:
```
def get_vanity_roles(self):
    if self.channel.is_private:
        return

    server = self.channel.server
    bot_role = None
    for r in server.roles:
        if r.name == "Bot" and r in server.me.roles:
            bot_role = r
            break
    if not bot_role:
        return

    roles = []
    for r in server.roles:
        # Only give roles with default permissions.
        if (r.position < bot_role.position
            and not r.is_everyone
            and r.permissions == server.default_role.permissions):
            roles.append(r)

    return roles
```
The two bare `return` statements yield Python `None`, modelled as `none`;
a found role list is `some roles`. -/

/-- A backend role handle: the fields the source reads. -/
structure Role where
  name : String
  position : ℤ
  is_everyone : Bool
  permissions : ℕ
deriving DecidableEq, Repr

/-- A backend server handle: the global role list, the roles held by the
bot account (`server.me.roles`) and the implicit everyone role
(`server.default_role`). -/
structure Server where
  roles : List Role
  me_roles : List Role
  default_role : Role
deriving DecidableEq, Repr

/-- A backend channel handle as seen by `DiscordChannel`. -/
structure Channel where
  is_private : Bool
  server : Server
deriving DecidableEq, Repr

/-- The first-loop predicate: a role named "Bot" that the bot account holds. -/
def isBotRole (sv : Server) (r : Role) : Bool :=
  r.name == "Bot" && decide (r ∈ sv.me_roles)

/-- The second-loop predicate: strictly below the bot role, not the everyone
role, and with exactly the default-role permission set. -/
def isVanityUnder (sv : Server) (bot_role : Role) (r : Role) : Bool :=
  decide (r.position < bot_role.position) && !r.is_everyone
    && r.permissions == sv.default_role.permissions

/-- `DiscordChannel.get_vanity_roles`. -/
def get_vanity_roles (ch : Channel) : Option (List Role) :=
  if ch.is_private then none
  else
    match ch.server.roles.find? (isBotRole ch.server) with
    | none => none
    | some bot_role => some (ch.server.roles.filter (isVanityUnder ch.server bot_role))

/-! ## `!removerole` command (`bot_removerole_command`)

Python source:
```
def bot_removerole_command(source, user, rolename):
    roles = source.get_vanity_roles()
    for r in roles:
        if rolename != r.name:
            continue

        if r not in user.roles:
            yield from source.send_chat(
                    "Member {} does not have role {}".format(user.name,
                        rolename))
            return

        yield from source.manager.remove_roles(user, r)
        yield from source.send_chat(
                "Member {} has lost role {}".format(user.name, rolename))
        return

    yield from source.send_chat("Unknown role: {}".format(rolename))
```
When `get_vanity_roles` returned `None`, iterating raises `TypeError`. -/

/-- A backend member handle: display name and currently held roles. -/
structure Member where
  name : String
  roles : List Role
deriving DecidableEq, Repr

/-- Observable actions of the role commands. -/
inductive RoleAction
  | reply (msg : String)
  | addRoles (r : Role)
  | removeRoles (r : Role)
deriving DecidableEq, Repr

/-- The loop body of `bot_removerole_command` over the remaining roles. -/
def removeroleLoop (user : Member) (rolename : String) : List Role → List RoleAction
  | [] => [RoleAction.reply ("Unknown role: " ++ rolename)]
  | r :: rest =>
    if rolename ≠ r.name then removeroleLoop user rolename rest
    else if r ∉ user.roles then
      [RoleAction.reply ("Member " ++ user.name ++ " does not have role " ++ rolename)]
    else
      [RoleAction.removeRoles r,
       RoleAction.reply ("Member " ++ user.name ++ " has lost role " ++ rolename)]

/-- `bot_removerole_command`. -/
def bot_removerole_command (ch : Channel) (user : Member) (rolename : String) :
    Except PyError (List RoleAction) :=
  match get_vanity_roles ch with
  | none => Except.error (PyError.typeError "NoneType object is not iterable")
  | some roles => Except.ok (removeroleLoop user rolename roles)

/-! ## `!say` command (`bot_say_command`)

Python source:
```
def bot_say_command(source, user, server, channel, message):
    mgr = source.manager
    dest_server = None
    for s in mgr.servers:
        if server.lower() in s.name.lower():
            dest_server = s
            break

    if not dest_server:
        yield from source.send_chat("Can't find server match for {}, must "
                "match one of: {}".format(server, ", ".join(
                    sorted([s.name for s in mgr.servers]))))
        return

    dest_channel = None
    chan_filt = lambda c: c.type == discord.ChannelType.text
    channels = list(filter(chan_filt, dest_server.channels))
    for c in channels:
        if channel.lower() in c.name.lower():
            dest_channel = s
            break

    if not dest_channel:
        yield from source.send_chat("Can't find channel match for {}, must "
                "match one of: {}".format(channel,
                    ", ".join(sorted([c.name for c in channels]))))

    yield from mgr.send_message(dest_channel, message)
```
Note the two slips kept verbatim in this embedding: the channel loop stores
the loop variable `s` of the earlier server loop (which, having been left via
`break`, still holds the matched server), and the channel-failure branch has
no `return`, so the final `send_message` runs with `dest_channel = None`. -/

/-- A backend channel type tag (`discord.ChannelType`). -/
inductive DChannelType
  | text
  | voice
  | other
deriving DecidableEq, Repr

/-- A backend channel of a server, as read by `bot_say_command`. -/
structure DChannel where
  name : String
  type : DChannelType
deriving DecidableEq, Repr

/-- A backend server handle with its channel list. -/
structure DServer where
  name : String
  channels : List DChannel
deriving DecidableEq, Repr

/-- The first argument of `mgr.send_message` as the code may produce it:
a channel, a server (via the wrong-variable slip) or Python `None`. -/
inductive SayTarget
  | chan (c : DChannel)
  | server (s : DServer)
  | pyNone
deriving DecidableEq, Repr

/-- Observable actions of `bot_say_command`: replies on the invoking source
versus forwards through `mgr.send_message`. -/
inductive SayAction
  | reply (msg : String)
  | forward (target : SayTarget) (msg : String)
deriving DecidableEq, Repr

/-- Python substring test `needle in hay` on character lists. -/
def substrCh (needle : List Char) : List Char → Bool
  | [] => decide (needle = [])
  | c :: t => needle.isPrefixOf (c :: t) || substrCh needle t

/-- Case-insensitive substring match `a.lower() in b.lower()` (ASCII case
folding; the inputs exercised here are ASCII). -/
def matchLower (needle hay : String) : Bool :=
  substrCh (needle.toList.map Char.toLower) (hay.toList.map Char.toLower)

/-- Code-point comparison of strings, as Python `sorted` uses. -/
def strLeCh : List Char → List Char → Bool
  | [], _ => true
  | _ :: _, [] => false
  | a :: s, b :: t =>
    if a.toNat < b.toNat then true
    else if b.toNat < a.toNat then false
    else strLeCh s t

/-- Insertion step of the stable sort. -/
def insertSorted (x : String) : List String → List String
  | [] => [x]
  | y :: ys => if strLeCh x.toList y.toList then x :: y :: ys else y :: insertSorted x ys

/-- Python `sorted` on a list of strings (stable, code-point order). -/
def sortedStrings : List String → List String
  | [] => []
  | x :: xs => insertSorted x (sortedStrings xs)

/-- `", ".join(sorted(names))`. -/
def joinSorted (names : List String) : String :=
  String.intercalate ", " (sortedStrings names)

/-- `bot_say_command`, embedded verbatim including the two slips. -/
def bot_say_command (servers : List DServer) (server channel message : String) :
    List SayAction :=
  match servers.find? (fun s => matchLower server s.name) with
  | none =>
    [SayAction.reply ("Can't find server match for " ++ server
      ++ ", must match one of: " ++ joinSorted (servers.map (fun s => s.name)))]
  | some dest_server =>
    let channels := dest_server.channels.filter (fun c => c.type == DChannelType.text)
    match channels.find? (fun c => matchLower channel c.name) with
    | some _ =>
      -- source slip: `dest_channel = s`, the server-loop variable
      [SayAction.forward (SayTarget.server dest_server) message]
    | none =>
      -- source slip: no `return` after the failure reply
      [SayAction.reply ("Can't find channel match for " ++ channel
        ++ ", must match one of: " ++ joinSorted (channels.map (fun c => c.name))),
       SayAction.forward SayTarget.pyNone message]

/-! ## The URL regular expression and `re.split`

Python source (module head):
```
_url_regexp = (r'(https?://(?:\S+(?::\S*)?@)?(?:(?:[1-9]\d?|1\d\d|2[01]\d|22'
               r'[0-3])(?:\.(?:1?\d{1,2}|2[0-4]\d|25[0-5])){2}(?:\.(?:[1-9]\d?'
               r'|1\d\d|2[0-4]\d|25[0-4]))|(?:(?:[a-z¡-￿0-9]+-?)*'
               r'[a-z¡-￿0-9]+)(?:\.(?:[a-z¡-￿0-9]+-?)*'
               r'[a-z¡-￿0-9]+)*(?:\.(?:[a-z¡-￿]{2,})))'
               r'(?::\d{2,5})?(?:/[^\s]*)?)')
```
The whole pattern is one capturing group, so `re.split(_url_regexp, message)`
returns gap and match substrings alternating, matches at odd indices.

The matcher below implements CPython `re` backtracking semantics for this
pattern: alternatives are tried left to right, `?`, `*`, `+` and bounded
repetitions are greedy, and the first overall success wins (so e.g. on
`http://1.2.3.45ab.cd` the IPv4 alternative wins with `http://1.2.3.45`,
not the longer domain parse).  `\d` is modelled as the ASCII digits (the
inputs this bridge handles; CPython would also accept other Unicode decimal
digits), `\s` as CPython's exact `str`-pattern whitespace set. -/

/-- CPython `re` whitespace (`\s`) for `str` patterns. -/
def isPySpace (c : Char) : Bool :=
  let n := c.toNat
  (0x9 ≤ n && n ≤ 0xD) || (0x1C ≤ n && n ≤ 0x20) || n == 0x85 || n == 0xA0
    || n == 0x1680 || (0x2000 ≤ n && n ≤ 0x200A) || n == 0x2028 || n == 0x2029
    || n == 0x202F || n == 0x205F || n == 0x3000

/-- `\S` and `[^\s]`. -/
def isNonSpace (c : Char) : Bool := !(isPySpace c)

/-- `\d` (ASCII fragment, see above). -/
def isDigitCh (c : Char) : Bool := '0' ≤ c && c ≤ '9'

/-- `[a-z¡-￿0-9]`. -/
def isHostChar (c : Char) : Bool :=
  ('a' ≤ c && c ≤ 'z') || isDigitCh c || (0xA1 ≤ c.toNat && c.toNat ≤ 0xFFFF)

/-- `[a-z¡-￿]`. -/
def isTldChar (c : Char) : Bool :=
  ('a' ≤ c && c ≤ 'z') || (0xA1 ≤ c.toNat && c.toNat ≤ 0xFFFF)

/-- Regular-expression abstract syntax (the fragment the URL pattern uses). -/
inductive RE
  | chr (p : Char → Bool)
  | eps
  | seq (a b : RE)
  | alt (a b : RE)
  | opt (a : RE)
  | star (a : RE)

/-- Greedy star iteration in continuation-passing style: try one more body
iteration first (the body matcher `m` is supplied), then stop.  A body match
that consumes nothing is not iterated (CPython's empty-match loop guard; the
bodies of all stars in the URL pattern always consume).  The fuel `n` bounds
the iteration count; `matchM` passes `s.length + 1`, which the consumption
guard makes sufficient. -/
def starIter (m : List Char → (List Char → Option (List Char)) → Option (List Char)) :
    ℕ → List Char → (List Char → Option (List Char)) → Option (List Char)
  | 0, s, k => k s
  | n+1, s, k =>
    (m s (fun r => if r.length < s.length then starIter m n r k else none)) <|> k s

/-- Backtracking matcher in continuation-passing style.  `matchM re s k`
anchors `re` at the head of `s` and calls `k` on the unconsumed suffix of
each candidate parse, in CPython preference order, returning the first
success — exactly the first-success semantics of the backtracking engine. -/
def matchM : RE → List Char → (List Char → Option (List Char)) → Option (List Char)
  | RE.chr p, s, k =>
    match s with
    | [] => none
    | c :: r => if p c then k r else none
  | RE.eps, s, k => k s
  | RE.seq a b, s, k => matchM a s (fun r => matchM b r k)
  | RE.alt a b, s, k => (matchM a s k) <|> (matchM b s k)
  | RE.opt a, s, k => (matchM a s k) <|> k s
  | RE.star a, s, k => starIter (fun t k' => matchM a t k') (s.length + 1) s k

/-- Single literal character. -/
def reCh (c : Char) : RE := RE.chr (fun d => d == c)

/-- Sequence of a list of pieces. -/
def reSeqAll : List RE → RE
  | [] => RE.eps
  | [r] => r
  | r :: rest => RE.seq r (reSeqAll rest)

/-- Ordered alternation of a list of branches. -/
def reAltAll : List RE → RE
  | [] => RE.eps
  | [r] => r
  | r :: rest => RE.alt r (reAltAll rest)

/-- `x+` as `x x*`. -/
def rePlus (a : RE) : RE := RE.seq a (RE.star a)

/-- `https?://`. -/
def reScheme : RE :=
  reSeqAll [reCh 'h', reCh 't', reCh 't', reCh 'p', RE.opt (reCh 's'),
    reCh ':', reCh '/', reCh '/']

/-- `\S*`. -/
def reSstar : RE := RE.star (RE.chr isNonSpace)

/-- `\S+`. -/
def reSplus : RE := rePlus (RE.chr isNonSpace)

/-- `(?::\S*)?`. -/
def reColonPart : RE := RE.opt (RE.seq (reCh ':') reSstar)

/-- `(?:\S+(?::\S*)?@)?`. -/
def reUserinfo : RE :=
  RE.opt (reSeqAll [reSplus, reColonPart, reCh '@'])

/-- `(?:[1-9]\d?|1\d\d|2[01]\d|22[0-3])`. -/
def reOct1 : RE := reAltAll [
  RE.seq (RE.chr (fun c => '1' ≤ c && c ≤ '9')) (RE.opt (RE.chr isDigitCh)),
  reSeqAll [reCh '1', RE.chr isDigitCh, RE.chr isDigitCh],
  reSeqAll [reCh '2', RE.chr (fun c => c == '0' || c == '1'), RE.chr isDigitCh],
  reSeqAll [reCh '2', reCh '2', RE.chr (fun c => '0' ≤ c && c ≤ '3')]]

/-- `(?:1?\d{1,2}|2[0-4]\d|25[0-5])`. -/
def reOctMid : RE := reAltAll [
  reSeqAll [RE.opt (reCh '1'), RE.chr isDigitCh, RE.opt (RE.chr isDigitCh)],
  reSeqAll [reCh '2', RE.chr (fun c => '0' ≤ c && c ≤ '4'), RE.chr isDigitCh],
  reSeqAll [reCh '2', reCh '5', RE.chr (fun c => '0' ≤ c && c ≤ '5')]]

/-- `(?:[1-9]\d?|1\d\d|2[0-4]\d|25[0-4])`. -/
def reOctLast : RE := reAltAll [
  RE.seq (RE.chr (fun c => '1' ≤ c && c ≤ '9')) (RE.opt (RE.chr isDigitCh)),
  reSeqAll [reCh '1', RE.chr isDigitCh, RE.chr isDigitCh],
  reSeqAll [reCh '2', RE.chr (fun c => '0' ≤ c && c ≤ '4'), RE.chr isDigitCh],
  reSeqAll [reCh '2', reCh '5', RE.chr (fun c => '0' ≤ c && c ≤ '4')]]

/-- The IPv4 alternative, with `(?:\.octMid){2}` unrolled. -/
def reIPv4 : RE := reSeqAll [reOct1,
  RE.seq (reCh '.') reOctMid, RE.seq (reCh '.') reOctMid,
  RE.seq (reCh '.') reOctLast]

/-- `(?:[a-z¡-￿0-9]+-?)*[a-z¡-￿0-9]+`. -/
def reLabel : RE :=
  RE.seq (RE.star (RE.seq (rePlus (RE.chr isHostChar)) (RE.opt (reCh '-'))))
    (rePlus (RE.chr isHostChar))

/-- `(?:\.label)*`. -/
def reSubdomains : RE := RE.star (RE.seq (reCh '.') reLabel)

/-- `(?:\.(?:[a-z¡-￿]{2,}))`. -/
def reTld : RE :=
  RE.seq (reCh '.')
    (RE.seq (RE.chr isTldChar) (RE.seq (RE.chr isTldChar) (RE.star (RE.chr isTldChar))))

/-- The domain alternative. -/
def reDomain : RE := reSeqAll [reLabel, reSubdomains, reTld]

/-- `(?:IPv4|domain)` — IPv4 tried first. -/
def reHost : RE := RE.alt reIPv4 reDomain

/-- `(?::\d{2,5})?` with the greedy bounded repetition unrolled. -/
def rePort : RE :=
  RE.opt (reSeqAll [reCh ':', RE.chr isDigitCh, RE.chr isDigitCh,
    RE.opt (RE.seq (RE.chr isDigitCh)
      (RE.opt (RE.seq (RE.chr isDigitCh) (RE.opt (RE.chr isDigitCh)))))])

/-- `(?:/[^\s]*)?` — `[^\s]` is the same character class as `\S`. -/
def rePath : RE := RE.opt (RE.seq (reCh '/') reSstar)

/-- The full URL pattern. -/
def urlRegex : RE := reSeqAll [reScheme, reUserinfo, reHost, rePort, rePath]

/-- Leftmost-anchored match attempt: the suffix left after the match, or
`none` (CPython `re.match` at this position). -/
def matchAt (s : List Char) : Option (List Char) :=
  matchM urlRegex s (fun r => some r)

/-- A match attempt returning `(matched substring, rest)`. -/
def matchAtSplit (s : List Char) : Option (List Char × List Char) :=
  (matchAt s).map (fun r => (s.take (s.length - r.length), r))

/-- Prepend a character to the first (gap) part of a split list. -/
def consHead (c : Char) : List (List Char) → List (List Char)
  | [] => [[c]]
  | g :: rest => (c :: g) :: rest

/-- `re.split` scan: advance one character at a time, taking each leftmost
non-overlapping match; `fuel` bounds the recursion (`length + 1` suffices
because every step consumes at least one character). -/
def reSplitF : ℕ → List Char → List (List Char)
  | 0, s => [s]
  | fuel+1, s =>
    match matchAtSplit s with
    | some (u, r) => [] :: u :: reSplitF fuel r
    | none =>
      match s with
      | [] => [[]]
      | c :: s' => consHead c (reSplitF fuel s')

/-- `re.split(_url_regexp, message)`: gap parts at even indices, matched
URLs at odd indices. -/
def reSplit (s : List Char) : List (List Char) := reSplitF (s.length + 1) s

/-! ## The outbound sanitizer (`DiscordChannel.send_chat`)

Python source:
```
def send_chat(self, message, message_type="normal"):
    # Clean up any markdown we don't want.
    if message_type == "monster":
        message = message.replace('```', r'\`\`\`')
    else:
        parts = re.split(_url_regexp, message)
        message = ""
        for i, p in enumerate(parts):
            # URLs parts will always be at an odd index. These are
            # unmodified. Remove markdown characters from non-urls parts.
            if not i % 2:
                for c in "*_~":
                    p = p.replace(c, "\\" + c)
            message += p

    if message_type == "action":
        message = '_' + message + '_'
    elif message_type == "monster":
        message = '```\n' + message + '\n```'
    elif self.message_needs_escape(message):
        message = "]" + message
    yield from self.manager.send_message(self.channel, message)
```
`message_needs_escape` is inherited from the external `beem` framework and
is supplied as a parameter. -/

/-- `p.replace(c, "\\" + c)` for a single-character pattern. -/
def replaceChar (target : Char) : List Char → List Char
  | [] => []
  | c :: rest =>
    if c = target then '\\' :: target :: replaceChar target rest
    else c :: replaceChar target rest

/-- The loop `for c in "*_~": p = p.replace(c, "\\" + c)`. -/
def escapeMd (s : List Char) : List Char :=
  replaceChar '~' (replaceChar '_' (replaceChar '*' s))

/-- Per-character view of `escapeMd` (proved equal below). -/
def escC (c : Char) : List Char :=
  if c = '*' ∨ c = '_' ∨ c = '~' then ['\\', c] else [c]

/-- The backtick character. -/
def tk : Char := Char.ofNat 96

/-- `message.replace('```', r'\`\`\`')`: left-to-right, non-overlapping,
the scan continuing after each replacement. -/
def escapeTicks : List Char → List Char
  | a :: b :: c :: rest =>
    if a = tk ∧ b = tk ∧ c = tk then
      '\\' :: tk :: '\\' :: tk :: '\\' :: tk :: escapeTicks rest
    else a :: escapeTicks (b :: c :: rest)
  | a :: rest => a :: escapeTicks rest
  | [] => []

/-- The enumerate loop: escape parts at even indices, keep odd (URL) parts,
and concatenate.  The flag is `true` on odd (URL) indices. -/
def joinEscAux : Bool → List (List Char) → List Char
  | _, [] => []
  | isUrl, p :: rest => (if isUrl then p else escapeMd p) ++ joinEscAux (!isUrl) rest

/-- The whole non-monster branch: split on the URL pattern, escape the gap
parts, reassemble. -/
def escapeUrlAware (message : List Char) : List Char :=
  joinEscAux false (reSplit message)

/-- The parts at odd (URL) positions of a split list. -/
def urlsOfParts : Bool → List (List Char) → List (List Char)
  | _, [] => []
  | isUrl, p :: rest =>
    if isUrl then p :: urlsOfParts (!isUrl) rest else urlsOfParts (!isUrl) rest

/-- The URL substrings the pattern detects in `s` (the odd parts of
`re.split`). -/
def urlsOf (s : List Char) : List (List Char) := urlsOfParts false (reSplit s)

/-- `'```\n'`. -/
def fenceOpen : List Char := [tk, tk, tk, '\n']

/-- `'\n```'`. -/
def fenceClose : List Char := ['\n', tk, tk, tk]

/-- `DiscordChannel.send_chat`, up to the final backend `send_message` call:
the text actually sent.  `needsEscape` models the inherited
`message_needs_escape`; modelled from the spec: it reports whether the
message's first character would trigger a backend auto-format. -/
def send_chat_text (needsEscape : List Char → Bool) (message : List Char)
    (message_type : String) : List Char :=
  let msg := if message_type == "monster" then escapeTicks message
             else escapeUrlAware message
  if message_type == "action" then '_' :: (msg ++ ['_'])
  else if message_type == "monster" then fenceOpen ++ msg ++ fenceClose
  else if needsEscape msg then ']' :: msg
  else msg

/-! ## Infrastructure for the URL-preservation proof

The markdown escape inserts a backslash in front of each `*`, `_`, `~` of a
gap segment.  `Ins s t` says `t` is `s` with such insertions: a backslash
may be inserted immediately before an occurrence of one of the three
escapable characters.  The key character-class facts are that `\`, `*`, `_`
and `~` all satisfy `\S`/`[^\s]` and fail every other character class and
literal of the URL pattern, so the matcher cannot distinguish them except by
how many of them a `\S` run holds. -/

/-- Syntactic guarantee that every parse of `re` consumes at least one
character. -/
def consumesRE : RE → Bool
  | RE.chr _ => true
  | RE.eps => false
  | RE.seq a b => consumesRE a || consumesRE b
  | RE.alt a b => consumesRE a && consumesRE b
  | RE.opt _ => false
  | RE.star _ => false

/-- The three characters the markdown escape targets. -/
def isSpecialMd (c : Char) : Bool := c == '*' || c == '_' || c == '~'

/-- `Ins s t`: `t` arises from `s` by inserting backslashes, each
immediately before an occurrence of `*`, `_` or `~`. -/
inductive Ins : List Char → List Char → Prop
  | nil : Ins [] []
  | keep (c : Char) {s t : List Char} : Ins s t → Ins (c :: s) (c :: t)
  | ins (c : Char) {s t : List Char} :
      isSpecialMd c = true → Ins (c :: s) t → Ins (c :: s) ('\\' :: t)

/-- Result relation for match attempts on the insertion-related top strings
`S`, `T`: both fail, or both succeed with insertion-related residuals and
insertion-related consumed prefixes. -/
def RelA (S T : List Char) (a b : Option (List Char)) : Prop :=
  (a = none ∧ b = none) ∨
  ∃ u v c c', a = some u ∧ b = some v ∧ Ins u v ∧ Ins c c' ∧ c ++ u = S ∧ c' ++ v = T

/-- Compatibility of two continuations, called on insertion-related residual
pairs of the current strings `s`, `t` whose consumed prefixes are
insertion-related. -/
def KCompatA (S T s t : List Char) (k₁ k₂ : List Char → Option (List Char)) : Prop :=
  ∀ r r', Ins r r' → (∃ c c', Ins c c' ∧ c ++ r = s ∧ c' ++ r' = t) →
    RelA S T (k₁ r) (k₂ r')

/-- A continuation that fails on the empty string and on any string headed
by one of the insertion-ambiguous characters `*`, `_`, `~`, `\`. -/
def DeadRejecting (k : List Char → Option (List Char)) : Prop :=
  k [] = none ∧ ∀ c r, isSpecialMd c = true ∨ c = '\\' → k (c :: r) = none

/-- A regex fragment is rigid when every character class in it rejects all
four insertion-ambiguous characters; the matcher then treats
insertion-related inputs in lockstep. -/
def rigidRE : RE → Bool
  | RE.chr p => !(p '\\') && !(p '*') && !(p '_') && !(p '~')
  | RE.eps => true
  | RE.seq a b => rigidRE a && rigidRE b
  | RE.alt a b => rigidRE a && rigidRE b
  | RE.opt a => rigidRE a
  | RE.star a => rigidRE a

/-- Alternate-map over split parts: escape the even (gap) parts, keep the
odd (URL) parts; the flag is `true` at odd indices. -/
def mapEscParts : Bool → List (List Char) → List (List Char)
  | _, [] => []
  | isUrl, p :: rest => (if isUrl then p else escapeMd p) :: mapEscParts (!isUrl) rest

end Cerebot

namespace Cerebot

/-! ## Theorems -/

theorem handle_timeout_no_prune (conf : RateConf) (times : List ℚ) (now : ℚ)
    (h : ∀ t ∈ times, now - t < conf.command_period) :
    handle_timeout conf times now =
      if conf.command_limit ≤ times.length then (true, times)
      else (false, times ++ [now]) := by
  have hf : times.filter (fun t => now - t < conf.command_period) = times :=
    List.filter_eq_self.mpr (fun t ht => decide_eq_true (h t ht))
  simp only [handle_timeout, hf]

theorem runCalls_accepted_count (conf : RateConf) :
    ∀ (calls times : List ℚ),
      (∀ a ∈ calls, ∀ b ∈ calls, b - a < conf.command_period) →
      (∀ t ∈ times, ∀ c ∈ calls, c - t < conf.command_period) →
      acceptedCount (runCalls conf times calls).1
        = min calls.length (conf.command_limit - times.length)
  | [], times, _, _ => by simp [runCalls, acceptedCount]
  | c :: cs, times, hw, hinv => by
    have hckept : ∀ t ∈ times, c - t < conf.command_period := fun t ht =>
      hinv t ht c (List.mem_cons_self c cs)
    have hht := handle_timeout_no_prune conf times c hckept
    have hw' : ∀ a ∈ cs, ∀ b ∈ cs, b - a < conf.command_period := fun a ha b hb =>
      hw a (List.mem_cons_of_mem c ha) b (List.mem_cons_of_mem c hb)
    by_cases hlim : conf.command_limit ≤ times.length
    · -- rejected: state unchanged, all remaining capacity is 0
      have hrec := runCalls_accepted_count conf cs times hw'
        (fun t ht c' hc' => hinv t ht c' (List.mem_cons_of_mem c hc'))
      have hsub0 : conf.command_limit - times.length = 0 := Nat.sub_eq_zero_of_le hlim
      rw [hsub0, Nat.min_zero] at hrec
      have hrun : runCalls conf times (c :: cs)
          = (true :: (runCalls conf times cs).1, (runCalls conf times cs).2) := by
        simp only [runCalls, hht, if_pos hlim]
      rw [hrun, hsub0, Nat.min_zero]
      simpa [acceptedCount, List.count_cons] using hrec
    · -- accepted: `c` is recorded
      have hinv' : ∀ t ∈ times ++ [c], ∀ c' ∈ cs, c' - t < conf.command_period := by
        intro t ht c' hc'
        rcases List.mem_append.mp ht with h1 | h1
        · exact hinv t h1 c' (List.mem_cons_of_mem c hc')
        · rcases List.mem_singleton.mp h1 with rfl
          exact hw _ (List.mem_cons_self _ _) c' (List.mem_cons_of_mem _ hc')
      have hrec := runCalls_accepted_count conf cs (times ++ [c]) hw' hinv'
      have hlen : (times ++ [c]).length = times.length + 1 := by
        simp
      rw [hlen] at hrec
      have hsub : conf.command_limit - times.length
          = (conf.command_limit - (times.length + 1)) + 1 := by omega
      have hrun : runCalls conf times (c :: cs)
          = (false :: (runCalls conf (times ++ [c]) cs).1,
             (runCalls conf (times ++ [c]) cs).2) := by
        simp only [runCalls, hht, if_neg hlim]
      rw [hrun, List.length_cons, hsub, Nat.add_min_add_right]
      simp only [acceptedCount] at hrec
      simp [acceptedCount, List.count_cons, hrec]

/-- C1 (amended): starting from an empty history, any sequence of calls — in
any order — whose timestamps all lie within a window shorter than
`command_period` (every pairwise difference is below the period) has exactly
`min n command_limit` accepted calls (return value `false`); a call made
strictly more than `command_period` after every recorded timestamp is
accepted provided `command_limit ≥ 1`; every recorded timestamp of age
`≥ command_period` is pruned (in particular every one older than
`now - command_period`), and a rejected attempt is not recorded — the
post-rejection list is exactly the pruned history. -/
theorem C1_rate_limiter (conf : RateConf) (times : List ℚ) (now : ℚ) (calls : List ℚ) :
    ((∀ a ∈ calls, ∀ b ∈ calls, b - a < conf.command_period) →
      acceptedCount (runCalls conf [] calls).1 = min calls.length conf.command_limit)
    ∧ (1 ≤ conf.command_limit → (∀ t ∈ times, conf.command_period < now - t) →
      (handle_timeout conf times now).1 = false)
    ∧ (∀ t ∈ (handle_timeout conf times now).2, now - t < conf.command_period ∨ t = now)
    ∧ ((handle_timeout conf times now).1 = true →
      (handle_timeout conf times now).2
        = times.filter (fun t => now - t < conf.command_period)) := by
  refine ⟨fun hw => ?_, fun hlim hgap => ?_, fun t ht => ?_, fun hrej => ?_⟩
  · have := runCalls_accepted_count conf calls [] hw (by simp)
    simpa using this
  · have hf : times.filter (fun t => now - t < conf.command_period) = [] := by
      apply List.filter_eq_nil_iff.mpr
      intro t ht
      have := hgap t ht
      simp only [decide_eq_true_eq, not_lt]
      linarith
    have hne : ¬ conf.command_limit ≤
        (times.filter (fun t => now - t < conf.command_period)).length := by
      rw [hf]
      simp only [List.length_nil, Nat.le_zero]
      omega
    simp only [handle_timeout, if_neg hne]
  · simp only [handle_timeout] at ht
    by_cases hlim : conf.command_limit ≤
        (times.filter (fun t => now - t < conf.command_period)).length
    · rw [if_pos hlim] at ht
      have ht2 : t ∈ times.filter (fun t => now - t < conf.command_period) := ht
      exact Or.inl (of_decide_eq_true ((List.mem_filter.mp ht2).2))
    · rw [if_neg hlim] at ht
      have ht2 : t ∈ times.filter (fun t => now - t < conf.command_period) ++ [now] := ht
      rcases List.mem_append.mp ht2 with h1 | h1
      · exact Or.inl (of_decide_eq_true ((List.mem_filter.mp h1).2))
      · exact Or.inr (List.mem_singleton.mp h1)
  · simp only [handle_timeout] at hrej ⊢
    by_cases hlim : conf.command_limit ≤
        (times.filter (fun t => now - t < conf.command_period)).length
    · rw [if_pos hlim]
    · rw [if_neg hlim] at hrej
      simp at hrej

/-- C1 witness: with `period = 10`, `limit = 2`, the three calls `0, 1, 2`
(all within a window of width `2 < 10`) yield exactly `min 3 2 = 2` accepts,
and with one stale timestamp `0`, a call at `20` (gap `20 > 10`) is accepted. -/
theorem C1_rate_limiter_witness :
    acceptedCount (runCalls ⟨10, 2⟩ [] [0, 1, 2]).1 = 2
      ∧ (handle_timeout ⟨10, 2⟩ [0] 20).1 = false := by
  constructor
  · have h := (C1_rate_limiter ⟨10, 2⟩ [] 0 [0, 1, 2]).1
    have hw : ∀ a ∈ ([0, 1, 2] : List ℚ), ∀ b ∈ ([0, 1, 2] : List ℚ),
        b - a < (⟨10, 2⟩ : RateConf).command_period := by
      intro a ha b hb
      simp only [List.mem_cons, List.not_mem_nil, or_false] at ha hb
      rcases ha with rfl | rfl | rfl <;> rcases hb with rfl | rfl | rfl <;> norm_num
    simpa using h hw
  · exact (C1_rate_limiter ⟨10, 2⟩ [0] 20 []).2.1 (by norm_num)
      (by intro t ht; simp at ht; rw [ht]; norm_num)

/-- C1 counterexample: with `command_limit = 0` the claim's clause "any call
made more than `period` after every previously recorded timestamp is accepted
regardless of history" fails: the history is empty (so the gap condition holds
vacuously), yet the call is rejected (`handle_timeout` returns `true`). -/
theorem C1_rate_limiter_counterexample :
    (∀ t ∈ ([] : List ℚ), (⟨1, 0⟩ : RateConf).command_period < (0 : ℚ) - t)
      ∧ (handle_timeout ⟨1, 0⟩ [] 0).1 = true := by
  refine ⟨by simp, ?_⟩
  simp [handle_timeout]

/-- C8 (amended): `disconnect` never raises (it is a total function even
when the backend `close` fails); it requests cancellation of the keepalive
task exactly when one exists and is not done; when `fake_connect` is set or
the connection is already closed it returns immediately without touching the
state (in particular without recording the shutdown flag — this is the
amendment); otherwise it calls `close`, logs rather than propagates a close
failure, and records the `shutdown` argument in the manager state. -/
theorem C8_disconnect (st : DiscordState) (closeResult : Except String Unit) (arg : Bool) :
    (DisconnectEvent.cancelPing ∈ (disconnect st closeResult arg).2
      ↔ ∃ t, st.ping_task = some t ∧ t.done = false)
    ∧ (st.fake_connect = true ∨ st.is_closed = true →
      (disconnect st closeResult arg).1 = st
        ∧ DisconnectEvent.closeCalled ∉ (disconnect st closeResult arg).2)
    ∧ (st.fake_connect = false → st.is_closed = false →
      (disconnect st closeResult arg).1.shutdown = arg
        ∧ DisconnectEvent.closeCalled ∈ (disconnect st closeResult arg).2
        ∧ ∀ e, closeResult = Except.error e →
            DisconnectEvent.logError ("Error when disconnecting: " ++ e)
              ∈ (disconnect st closeResult arg).2) := by
  obtain ⟨pt, fc, ic, sd⟩ := st
  rcases pt with _ | ⟨d⟩
  · cases fc <;> cases ic <;> (rcases closeResult with e | u <;> simp [disconnect])
  · cases d
    cases fc <;> cases ic <;> (rcases closeResult with e | u <;> simp [disconnect])

/-- C8 witness: a live undone ping task on an open real connection is
cancelled, a failing close is logged, and the shutdown argument is
recorded. -/
theorem C8_disconnect_witness :
    DisconnectEvent.cancelPing
        ∈ (disconnect ⟨some ⟨false⟩, false, false, false⟩ (Except.error "boom") true).2
      ∧ (disconnect ⟨some ⟨false⟩, false, false, false⟩ (Except.error "boom") true).1.shutdown
          = true
      ∧ DisconnectEvent.logError "Error when disconnecting: boom"
        ∈ (disconnect ⟨some ⟨false⟩, false, false, false⟩ (Except.error "boom") true).2 := by
  have h := C8_disconnect ⟨some ⟨false⟩, false, false, false⟩ (Except.error "boom") true
  exact ⟨h.1.mpr ⟨⟨false⟩, rfl, rfl⟩, (h.2.2 rfl rfl).1,
    (h.2.2 rfl rfl).2.2 "boom" rfl⟩

/-- C8 counterexample: the claim says the shutdown flag is recorded in every
case, but on the `fake_connect` early return `disconnect(shutdown=True)`
leaves the flag `False`. -/
theorem C8_disconnect_counterexample :
    (disconnect ⟨none, true, false, false⟩ (Except.ok ()) true).1.shutdown = false := rfl

theorem start_ping_replicate (k : ℕ) (rest : List PingStep) :
    start_ping (List.replicate k ⟨false, PingOutcome.success⟩ ++ rest)
      = (List.replicate k [PingEvent.pinged, PingEvent.slept]).flatten ++ start_ping rest := by
  induction k with
  | zero => simp
  | succ n ih => simp [List.replicate_succ, start_ping, ih]

theorem count_flatten_replicate (x : PingEvent) (k : ℕ) (l : List PingEvent) :
    ((List.replicate k l).flatten.count x) = k * l.count x := by
  induction k with
  | zero => simp
  | succ n ih =>
    simp [List.replicate_succ, List.count_append, ih]
    ring

/-- C9: the keepalive loop pings, and on success sleeps for the fixed
interval and repeats; after `k` successful iterations, a failing ping
produces exactly one log entry and exactly one asynchronous disconnect
request and the loop exits — `k + 1` pings total, none after the failure;
a cancelled ping instead exits silently: no log entry and no disconnect
request is ever emitted on that trace. -/
theorem C9_keepalive (k : ℕ) (m : String) (rest : List PingStep) :
    (start_ping (List.replicate k ⟨false, PingOutcome.success⟩
        ++ ⟨false, PingOutcome.failure m⟩ :: rest)
      = (List.replicate k [PingEvent.pinged, PingEvent.slept]).flatten
        ++ [PingEvent.pinged, PingEvent.logged ("Unable to send ping: " ++ m),
            PingEvent.disconnectRequested])
    ∧ (start_ping (List.replicate k ⟨false, PingOutcome.success⟩
        ++ ⟨false, PingOutcome.failure m⟩ :: rest)).count PingEvent.disconnectRequested = 1
    ∧ (start_ping (List.replicate k ⟨false, PingOutcome.success⟩
        ++ ⟨false, PingOutcome.failure m⟩ :: rest)).count PingEvent.pinged = k + 1
    ∧ (start_ping (List.replicate k ⟨false, PingOutcome.success⟩
        ++ ⟨false, PingOutcome.cancelled⟩ :: rest)
      = (List.replicate k [PingEvent.pinged, PingEvent.slept]).flatten
        ++ [PingEvent.pinged])
    ∧ (start_ping (List.replicate k ⟨false, PingOutcome.success⟩
        ++ ⟨false, PingOutcome.cancelled⟩ :: rest)).count PingEvent.disconnectRequested = 0
    ∧ ∀ m', (PingEvent.logged m') ∉
        start_ping (List.replicate k ⟨false, PingOutcome.success⟩
          ++ ⟨false, PingOutcome.cancelled⟩ :: rest) := by
  have hfail := start_ping_replicate k (⟨false, PingOutcome.failure m⟩ :: rest)
  have hcanc := start_ping_replicate k (⟨false, PingOutcome.cancelled⟩ :: rest)
  have hfail' : start_ping (List.replicate k ⟨false, PingOutcome.success⟩
        ++ ⟨false, PingOutcome.failure m⟩ :: rest)
      = (List.replicate k [PingEvent.pinged, PingEvent.slept]).flatten
        ++ [PingEvent.pinged, PingEvent.logged ("Unable to send ping: " ++ m),
            PingEvent.disconnectRequested] := by
    rw [hfail]; simp [start_ping]
  have hcanc' : start_ping (List.replicate k ⟨false, PingOutcome.success⟩
        ++ ⟨false, PingOutcome.cancelled⟩ :: rest)
      = (List.replicate k [PingEvent.pinged, PingEvent.slept]).flatten
        ++ [PingEvent.pinged] := by
    rw [hcanc]; simp [start_ping]
  refine ⟨hfail', ?_, ?_, hcanc', ?_, ?_⟩
  · rw [hfail', List.count_append, count_flatten_replicate]
    simp [List.count_cons]
  · rw [hfail', List.count_append, count_flatten_replicate]
    simp [List.count_cons]
  · rw [hcanc', List.count_append, count_flatten_replicate]
    simp [List.count_cons]
  · intro m' hm
    rw [hcanc'] at hm
    rcases List.mem_append.mp hm with h1 | h1
    · rcases List.mem_flatten.mp h1 with ⟨l, hl, hml⟩
      rcases List.eq_of_mem_replicate hl with rfl
      simp at hml
    · simp at h1

/-- C7: a command whose table entry is scoped `"channel"` is rejected from a
private conversation with the fixed human-readable reason; in every other
combination (non-private source, or any other `source_restriction`) the
handler defers to the inherited generic check `superCheck`. -/
theorem C7_channel_only_commands (superCheck : String → String → Bool × String)
    (is_private : Bool) (user command : String) (entry : BotCommandEntry) :
    (lookupCommand command = some entry → entry.source_restriction = some "channel" →
      bot_command_allowed superCheck true user command
        = Except.ok (false, "This command must be run in a channel."))
    ∧ (lookupCommand command = some entry → entry.source_restriction = some "channel" →
      bot_command_allowed superCheck false user command
        = Except.ok (superCheck user command))
    ∧ (lookupCommand command = some entry → entry.source_restriction ≠ some "channel" →
      bot_command_allowed superCheck is_private user command
        = Except.ok (superCheck user command)) := by
  refine ⟨fun hl hr => ?_, fun hl hr => ?_, fun hl hr => ?_⟩
  · simp [bot_command_allowed, hl, hr]
  · simp [bot_command_allowed, hl, hr]
  · have : (entry.source_restriction == some "channel") = false := by
      simpa using hr
    simp [bot_command_allowed, hl, this]

/-- C7 witness: `listroles` is scoped `"channel"`; invoked from a private
conversation it is rejected with the fixed reason, and from a channel it
defers to the generic check. -/
theorem C7_channel_only_commands_witness :
    bot_command_allowed (fun _ _ => (true, "ok")) true "user" "listroles"
      = Except.ok (false, "This command must be run in a channel.")
    ∧ bot_command_allowed (fun _ _ => (true, "ok")) false "user" "listroles"
      = Except.ok (true, "ok") := by
  have h := C7_channel_only_commands (fun _ _ => (true, "ok")) true "user" "listroles"
    ⟨none, true, some "channel", "bot_listroles_command"⟩
  exact ⟨h.1 rfl rfl, h.2.1 rfl rfl⟩

/-- C4: for a private channel `get_vanity_roles` returns the empty result
(Python `None`); likewise when no role named "Bot" held by the bot account
exists; otherwise it returns, in the backend's native role ordering (a
sublist of `server.roles`), exactly those roles strictly below the bot
role's position that are not the everyone role and whose permission set
equals the default role's. -/
theorem C4_vanity_roles (ch : Channel) :
    (ch.is_private = true → get_vanity_roles ch = none)
    ∧ (ch.is_private = false → ch.server.roles.find? (isBotRole ch.server) = none →
      get_vanity_roles ch = none)
    ∧ (∀ bot_role, ch.is_private = false →
      ch.server.roles.find? (isBotRole ch.server) = some bot_role →
      ∃ rs, get_vanity_roles ch = some rs
        ∧ rs.Sublist ch.server.roles
        ∧ (∀ r, r ∈ rs ↔ r ∈ ch.server.roles ∧ r.position < bot_role.position
            ∧ r.is_everyone = false ∧ r.permissions = ch.server.default_role.permissions)) := by
  refine ⟨fun hp => ?_, fun hp hn => ?_, fun bot_role hp hf => ?_⟩
  · simp [get_vanity_roles, hp]
  · simp [get_vanity_roles, hp, hn]
  · refine ⟨ch.server.roles.filter (isVanityUnder ch.server bot_role), ?_, ?_, ?_⟩
    · simp [get_vanity_roles, hp, hf]
    · exact List.filter_sublist _
    · intro r
      rw [List.mem_filter]
      constructor
      · rintro ⟨hmem, hv⟩
        simp only [isVanityUnder, Bool.and_eq_true, decide_eq_true_eq,
          Bool.not_eq_true', beq_iff_eq] at hv
        exact ⟨hmem, hv.1.1, hv.1.2, hv.2⟩
      · rintro ⟨hmem, h1, h2, h3⟩
        refine ⟨hmem, ?_⟩
        simp only [isVanityUnder, Bool.and_eq_true, decide_eq_true_eq,
          Bool.not_eq_true', beq_iff_eq]
        exact ⟨⟨h1, h2⟩, h3⟩

/-- C4 witness: the spec's example — the bot role sits at position 5; of the
candidate roles at positions 2, 3 and 6, only the position-2 role with
exactly-default permissions is returned; and a private channel yields the
empty result. -/
theorem C4_vanity_roles_witness :
    (get_vanity_roles
      ⟨false,
       ⟨[⟨"@everyone", 0, true, 0⟩, ⟨"Blue", 2, false, 0⟩, ⟨"Green", 3, false, 7⟩,
         ⟨"Bot", 5, false, 9⟩, ⟨"Red", 6, false, 0⟩],
        [⟨"Bot", 5, false, 9⟩],
        ⟨"@everyone", 0, true, 0⟩⟩⟩
      = some [⟨"Blue", 2, false, 0⟩])
    ∧ get_vanity_roles ⟨true, ⟨[], [], ⟨"@everyone", 0, true, 0⟩⟩⟩ = none := by
  constructor
  · rfl
  · exact (C4_vanity_roles ⟨true, ⟨[], [], ⟨"@everyone", 0, true, 0⟩⟩⟩).1 rfl

theorem removeroleLoop_not_held (user : Member) (rolename : String) :
    ∀ (roles : List Role) (r : Role),
      roles.find? (fun r => rolename == r.name) = some r → r ∉ user.roles →
      removeroleLoop user rolename roles
        = [RoleAction.reply ("Member " ++ user.name ++ " does not have role " ++ rolename)]
  | [], r, hf, _ => by simp at hf
  | r₁ :: rest, r, hf, hheld => by
    by_cases hname : rolename = r₁.name
    · have : r₁ = r := by
        rw [List.find?_cons_of_pos] at hf
        · exact (Option.some.injEq _ _).mp hf
        · simpa using hname
      subst this
      simp [removeroleLoop, hname, hheld]
    · rw [List.find?_cons_of_neg] at hf
      · simp only [removeroleLoop, if_pos (by exact hname)]
        exact removeroleLoop_not_held user rolename rest r hf hheld
      · simpa using hname

theorem removeroleLoop_remove_mem (user : Member) (rolename : String) :
    ∀ (roles : List Role) (r₀ : Role),
      RoleAction.removeRoles r₀ ∈ removeroleLoop user rolename roles →
      roles.find? (fun r => rolename == r.name) = some r₀ ∧ r₀ ∈ user.roles
  | [], r₀, hm => by simp [removeroleLoop] at hm
  | r₁ :: rest, r₀, hm => by
    by_cases hname : rolename = r₁.name
    · by_cases hheld : r₁ ∈ user.roles
      · simp only [removeroleLoop, if_neg (not_not_intro hname),
          if_neg (not_not_intro hheld)] at hm
        rcases List.mem_cons.mp hm with h1 | h1
        · have : r₀ = r₁ := by
            simpa using h1
          subst this
          refine ⟨?_, hheld⟩
          rw [List.find?_cons_of_pos]
          · simpa using hname
        · simp at h1
      · simp only [removeroleLoop, if_neg (not_not_intro hname), if_pos hheld] at hm
        simp at hm
    · simp only [removeroleLoop, if_pos hname] at hm
      have := removeroleLoop_remove_mem user rolename rest r₀ hm
      refine ⟨?_, this.2⟩
      rw [List.find?_cons_of_neg]
      · exact this.1
      · simpa using hname

/-- C10: when the requested name first matches a vanity role the invoking
user does not hold, `bot_removerole_command` only replies that the member
does not have the role — no `remove_roles` call is made, so the user's role
membership is unchanged; conversely every emitted `remove_roles` call is on
the first name-matching vanity role and only when the user holds it. -/
theorem C10_removerole (ch : Channel) (user : Member) (rolename : String)
    (roles : List Role) (r : Role) :
    (get_vanity_roles ch = some roles →
      roles.find? (fun r => rolename == r.name) = some r → r ∉ user.roles →
      bot_removerole_command ch user rolename
        = Except.ok [RoleAction.reply
            ("Member " ++ user.name ++ " does not have role " ++ rolename)])
    ∧ (∀ acts r₀, bot_removerole_command ch user rolename = Except.ok acts →
      RoleAction.removeRoles r₀ ∈ acts →
      ∃ roles₀, get_vanity_roles ch = some roles₀
        ∧ roles₀.find? (fun r => rolename == r.name) = some r₀ ∧ r₀ ∈ user.roles) := by
  constructor
  · intro hv hf hheld
    simp only [bot_removerole_command, hv]
    rw [removeroleLoop_not_held user rolename roles r hf hheld]
  · intro acts r₀ hrun hm
    rcases hv : get_vanity_roles ch with _ | roles₀
    · simp [bot_removerole_command, hv] at hrun
    · simp only [bot_removerole_command, hv, Except.ok.injEq] at hrun
      subst hrun
      have := removeroleLoop_remove_mem user rolename roles₀ r₀ hm
      exact ⟨roles₀, rfl, this.1, this.2⟩

/-- C10 witness: in a channel whose only vanity role is "Helper", a user who
does not hold it gets the "does not have role" reply and no role change. -/
theorem C10_removerole_witness :
    bot_removerole_command
      ⟨false,
       ⟨[⟨"@everyone", 0, true, 0⟩, ⟨"Helper", 2, false, 0⟩, ⟨"Bot", 5, false, 9⟩],
        [⟨"Bot", 5, false, 9⟩],
        ⟨"@everyone", 0, true, 0⟩⟩⟩
      ⟨"alice", []⟩ "Helper"
      = Except.ok [RoleAction.reply "Member alice does not have role Helper"] := by
  have h := (C10_removerole
    ⟨false,
     ⟨[⟨"@everyone", 0, true, 0⟩, ⟨"Helper", 2, false, 0⟩, ⟨"Bot", 5, false, 9⟩],
      [⟨"Bot", 5, false, 9⟩],
      ⟨"@everyone", 0, true, 0⟩⟩⟩
    ⟨"alice", []⟩ "Helper" [⟨"Helper", 2, false, 0⟩] ⟨"Helper", 2, false, 0⟩).1
    rfl rfl (by simp)
  simpa using h

theorem escapeTicks_of_not_mem : ∀ s : List Char, tk ∉ s → escapeTicks s = s
  | [], _ => rfl
  | [a], h => by
    simp [escapeTicks]
  | [a, b], h => by
    simp [escapeTicks]
  | a :: b :: c :: rest, h => by
    have ha : a ≠ tk := fun hc => h (by simp [hc])
    rw [escapeTicks, if_neg (fun hc => ha hc.1)]
    have := escapeTicks_of_not_mem (b :: c :: rest) (fun hc => h (List.mem_cons_of_mem a hc))
    rw [this]

/-- C6: for `monster` messages each literal triple backtick is replaced by
its backslash-escaped form and the result is wrapped in a fenced code block,
with no URL splitting or markdown-emphasis escaping (a backtick-free body,
whatever markdown it contains, passes through verbatim); an `action` message
is the URL-aware-escaped text surrounded with underscores; any other message
type gets the neutral `]` prefix exactly when `message_needs_escape` reports
the escaped message's start would trigger a backend auto-format. -/
theorem C6_send_chat_wrapping (ne : List Char → Bool) (msg : List Char) (mt : String) :
    (send_chat_text ne msg "monster" = fenceOpen ++ escapeTicks msg ++ fenceClose)
    ∧ (escapeTicks ([tk, tk, tk] ++ msg) = ['\\', tk, '\\', tk, '\\', tk] ++ escapeTicks msg)
    ∧ (tk ∉ msg → send_chat_text ne msg "monster" = fenceOpen ++ msg ++ fenceClose)
    ∧ (send_chat_text ne msg "action" = '_' :: (escapeUrlAware msg ++ ['_']))
    ∧ (mt ≠ "action" → mt ≠ "monster" →
      send_chat_text ne msg mt
        = if ne (escapeUrlAware msg) then ']' :: escapeUrlAware msg
          else escapeUrlAware msg) := by
  refine ⟨rfl, ?_, fun htk => ?_, rfl, fun hma hmm => ?_⟩
  · show escapeTicks (tk :: tk :: tk :: msg) = _
    rw [escapeTicks, if_pos ⟨rfl, rfl, rfl⟩]
    rfl
  · have h1 : send_chat_text ne msg "monster" = fenceOpen ++ escapeTicks msg ++ fenceClose :=
      rfl
    rw [h1, escapeTicks_of_not_mem msg htk]
  · have h1 : (mt == "monster") = false := by
      simpa using hmm
    have h2 : (mt == "action") = false := by
      simpa using hma
    simp only [send_chat_text, h1, h2, Bool.false_eq_true, if_false]

/-- C6 witness: a backtick-free monster message keeps its underscore inside
the fence, and a normal message is prefixed with `]` when the escape
predicate fires. -/
theorem C6_send_chat_wrapping_witness :
    send_chat_text (fun _ => true) ['a', '_', 'b'] "monster"
        = fenceOpen ++ ['a', '_', 'b'] ++ fenceClose
    ∧ send_chat_text (fun _ => true) ['a'] "normal" = [']', 'a'] := by
  constructor
  · exact (C6_send_chat_wrapping (fun _ => true) ['a', '_', 'b'] "normal").2.2.1
      (by decide)
  · rw [(C6_send_chat_wrapping (fun _ => true) ['a'] "normal").2.2.2.2
      (by decide) (by decide)]
    rfl

/-! ### Structural facts about the backtracking matcher and the split -/

theorem orElse_eq_some_cases {α : Type} {x y : Option α} {v : α} (h : (x <|> y) = some v) :
    x = some v ∨ (x = none ∧ y = some v) := by
  cases x with
  | none =>
    right
    exact ⟨rfl, by simpa using h⟩
  | some w =>
    left
    simpa using h

theorem matchM_calls : ∀ (re : RE) (s : List Char) (k : List Char → Option (List Char))
    (v : List Char), matchM re s k = some v →
    ∃ r, k r = some v ∧ r.IsSuffix s ∧ (consumesRE re = true → r.length < s.length)
  | RE.chr p, s, k, v => by
    intro h
    match s with
    | [] => simp [matchM] at h
    | c :: s₀ =>
      simp only [matchM] at h
      by_cases hp : p c
      · rw [if_pos hp] at h
        exact ⟨s₀, h, List.suffix_cons c s₀, fun _ => by simp⟩
      · rw [if_neg hp] at h
        simp at h
  | RE.eps, s, k, v => by
    intro h
    exact ⟨s, h, List.suffix_refl s, fun hc => by simp [consumesRE] at hc⟩
  | RE.seq a b, s, k, v => by
    intro h
    simp only [matchM] at h
    rcases matchM_calls a s (fun r => matchM b r k) v h with ⟨r₁, h₁, hs₁, hl₁⟩
    rcases matchM_calls b r₁ k v h₁ with ⟨r₂, h₂, hs₂, hl₂⟩
    refine ⟨r₂, h₂, hs₂.trans hs₁, fun hc => ?_⟩
    simp only [consumesRE, Bool.or_eq_true] at hc
    rcases hc with hc | hc
    · exact Nat.lt_of_le_of_lt hs₂.length_le (hl₁ hc)
    · exact Nat.lt_of_lt_of_le (hl₂ hc) hs₁.length_le
  | RE.alt a b, s, k, v => by
    intro h
    simp only [matchM] at h
    rcases orElse_eq_some_cases h with h1 | ⟨_, h1⟩
    · rcases matchM_calls a s k v h1 with ⟨r, hr, hs, hl⟩
      refine ⟨r, hr, hs, fun hc => ?_⟩
      simp only [consumesRE, Bool.and_eq_true] at hc
      exact hl hc.1
    · rcases matchM_calls b s k v h1 with ⟨r, hr, hs, hl⟩
      refine ⟨r, hr, hs, fun hc => ?_⟩
      simp only [consumesRE, Bool.and_eq_true] at hc
      exact hl hc.2
  | RE.opt a, s, k, v => by
    intro h
    simp only [matchM] at h
    rcases orElse_eq_some_cases h with h1 | ⟨_, h1⟩
    · rcases matchM_calls a s k v h1 with ⟨r, hr, hs, _⟩
      exact ⟨r, hr, hs, fun hc => by simp [consumesRE] at hc⟩
    · exact ⟨s, h1, List.suffix_refl s, fun hc => by simp [consumesRE] at hc⟩
  | RE.star a, s, k, v => by
    intro h
    simp only [matchM] at h
    suffices haux : ∀ (n : ℕ) (t : List Char), t.IsSuffix s →
        starIter (fun t k' => matchM a t k') n t k = some v →
        ∃ r, k r = some v ∧ r.IsSuffix s by
      rcases haux (s.length + 1) s (List.suffix_refl s) h with ⟨r, hr, hs⟩
      exact ⟨r, hr, hs, fun hc => by simp [consumesRE] at hc⟩
    intro n
    induction n with
    | zero =>
      intro t hts h0
      exact ⟨t, h0, hts⟩
    | succ m ih =>
      intro t hts h0
      simp only [starIter] at h0
      rcases orElse_eq_some_cases h0 with h1 | ⟨_, h1⟩
      · rcases matchM_calls a t
          (fun r => if r.length < t.length then
            starIter (fun t k' => matchM a t k') m r k else none) v h1 with ⟨r, hr, hrs, _⟩
        by_cases hlt : r.length < t.length
        · rw [if_pos hlt] at hr
          exact ih r (hrs.trans hts) hr
        · rw [if_neg hlt] at hr
          simp at hr
      · exact ⟨t, h1, hts⟩

theorem matchAt_suffix_strict (s r : List Char) (h : matchAt s = some r) :
    r.IsSuffix s ∧ r.length < s.length := by
  rcases matchM_calls urlRegex s (fun r => some r) r h with ⟨r₁, hr₁, hs₁, hl₁⟩
  have : r₁ = r := by simpa using hr₁
  subst this
  exact ⟨hs₁, hl₁ rfl⟩

theorem matchAtSplit_parts (s u r : List Char) (h : matchAtSplit s = some (u, r)) :
    u ++ r = s ∧ matchAt s = some r ∧ r.length < s.length := by
  rcases hm : matchAt s with _ | r₀
  · simp [matchAtSplit, hm] at h
  · have h' : some (s.take (s.length - r₀.length), r₀) = some (u, r) := by
      rw [← h]
      simp [matchAtSplit, hm]
    have h2 : (s.take (s.length - r₀.length), r₀) = (u, r) := Option.some.inj h'
    have hu : s.take (s.length - r₀.length) = u := congrArg Prod.fst h2
    have hr : r₀ = r := congrArg Prod.snd h2
    subst hr
    rcases matchAt_suffix_strict s r₀ hm with ⟨⟨pre, hpre⟩, hlen⟩
    have hulen : s.length - r₀.length = pre.length := by
      rw [← hpre]
      simp
    have hu' : u = pre := by
      rw [← hu, hulen, ← hpre, List.take_left]
    subst hu'
    exact ⟨hpre, rfl, hlen⟩

theorem matchAtSplit_of_matchAt (u r : List Char) (h : matchAt (u ++ r) = some r) :
    matchAtSplit (u ++ r) = some (u, r) := by
  have hT : (u ++ r).take ((u ++ r).length - r.length) = u := by
    have : (u ++ r).length - r.length = u.length := by simp
    rw [this, List.take_left]
  simp [matchAtSplit, h, hT]

theorem consHead_flatten (c : Char) (L : List (List Char)) :
    (consHead c L).flatten = c :: L.flatten := by
  cases L with
  | nil => rfl
  | cons g rest => rfl

theorem reSplitF_succ (fuel : ℕ) (s : List Char) :
    reSplitF (fuel + 1) s =
      match matchAtSplit s with
      | some (u, r) => [] :: u :: reSplitF fuel r
      | none =>
        match s with
        | [] => [[]]
        | c :: s' => consHead c (reSplitF fuel s') := rfl

theorem reSplitF_flatten : ∀ (fuel : ℕ) (s : List Char), s.length < fuel →
    (reSplitF fuel s).flatten = s
  | 0, s, h => by omega
  | fuel + 1, s, h => by
    rcases hm : matchAtSplit s with _ | ⟨u, r⟩
    · cases s with
      | nil => simp [reSplitF_succ, hm]
      | cons c s' =>
        rw [reSplitF_succ]
        rw [hm]
        show (consHead c (reSplitF fuel s')).flatten = c :: s'
        rw [consHead_flatten]
        rw [reSplitF_flatten fuel s' (by simpa using Nat.lt_of_succ_lt_succ h)]
    · rcases matchAtSplit_parts s u r hm with ⟨hur, _, hlen⟩
      rw [reSplitF_succ, hm]
      show ([] ++ (u ++ (reSplitF fuel r).flatten)) = s
      rw [reSplitF_flatten fuel r (by omega)]
      simpa using hur

theorem reSplit_flatten (s : List Char) : (reSplit s).flatten = s :=
  reSplitF_flatten (s.length + 1) s (Nat.lt_succ_self _)

theorem consHead_urls (c : Char) (L : List (List Char)) (hL : L ≠ []) :
    urlsOfParts false (consHead c L) = urlsOfParts false L := by
  cases L with
  | nil => exact absurd rfl hL
  | cons g rest => rfl

theorem reSplitF_ne_nil : ∀ (fuel : ℕ) (s : List Char), reSplitF fuel s ≠ []
  | 0, s => by simp [reSplitF]
  | fuel + 1, s => by
    rcases hm : matchAtSplit s with _ | ⟨u, r⟩
    · cases s with
      | nil => simp [reSplitF_succ, hm]
      | cons c s' =>
        rw [reSplitF_succ, hm]
        show consHead c (reSplitF fuel s') ≠ []
        cases hL : reSplitF fuel s' with
        | nil => simp [consHead]
        | cons g rest => simp [consHead]
    · rw [reSplitF_succ, hm]
      simp

theorem urlsOfParts_even_cons (p : List Char) (L : List (List Char)) :
    urlsOfParts false (p :: L) = urlsOfParts true L := rfl

theorem urlsOfParts_odd_cons (p : List Char) (L : List (List Char)) :
    urlsOfParts true (p :: L) = p :: urlsOfParts false L := rfl

theorem urlsOf_are_matches : ∀ (fuel : ℕ) (s : List Char), s.length < fuel →
    ∀ u ∈ urlsOfParts false (reSplitF fuel s),
      ∃ pre suf, pre ++ (u ++ suf) = s ∧ matchAtSplit (u ++ suf) = some (u, suf)
  | 0, s, h => by omega
  | fuel + 1, s, h => by
    rcases hm : matchAtSplit s with _ | ⟨u₀, r⟩
    · cases s with
      | nil =>
        rw [reSplitF_succ, hm]
        intro u hu
        simp [urlsOfParts] at hu
      | cons c s' =>
        rw [reSplitF_succ, hm]
        show ∀ u ∈ urlsOfParts false (consHead c (reSplitF fuel s')), _
        rw [consHead_urls c _ (reSplitF_ne_nil fuel s')]
        intro u hu
        rcases urlsOf_are_matches fuel s' (by simpa using Nat.lt_of_succ_lt_succ h) u hu
          with ⟨pre, suf, hps, hm'⟩
        exact ⟨c :: pre, suf, by rw [← hps]; rfl, hm'⟩
    · rcases matchAtSplit_parts s u₀ r hm with ⟨hur, hma, hlen⟩
      rw [reSplitF_succ, hm]
      rw [urlsOfParts_even_cons, urlsOfParts_odd_cons]
      intro u hu
      rcases List.mem_cons.mp hu with rfl | hu'
      · refine ⟨[], r, by simpa using hur, ?_⟩
        rw [hur]
        exact hm
      · rcases urlsOf_are_matches fuel r (by omega) u hu' with ⟨pre, suf, hps, hm'⟩
        refine ⟨u₀ ++ pre, suf, ?_, hm'⟩
        rw [List.append_assoc, hps]
        exact hur

/-- C2: the claim (and the spec) require the `!say` relay to forward the
message to the matched channel, and on a failed channel match to reply with
the candidate list and not forward; the code instead stores the stale server
loop variable, forwarding the message to the server object, and — lacking a
`return` in the failure branch — forwards to Python `None` after the failure
reply.  Both divergences evaluated on a one-server, one-text-channel
backend. -/
theorem C2_say_forwards_to_wrong_target :
    bot_say_command [⟨"Server", [⟨"general", DChannelType.text⟩]⟩] "serv" "gen" "hi"
      = [SayAction.forward (SayTarget.server ⟨"Server", [⟨"general", DChannelType.text⟩]⟩)
          "hi"]
    ∧ bot_say_command [⟨"Server", [⟨"general", DChannelType.text⟩]⟩] "serv" "nope" "hi"
      = [SayAction.reply "Can't find channel match for nope, must match one of: general",
         SayAction.forward SayTarget.pyNone "hi"] := by
  constructor
  · rfl
  · rfl

/-! ### Basic facts about the insertion relation -/

theorem Ins.refl : ∀ s : List Char, Ins s s
  | [] => Ins.nil
  | c :: rest => Ins.keep c (Ins.refl rest)

theorem Ins_nil_left {t : List Char} (h : Ins [] t) : t = [] := by
  cases h
  rfl

theorem Ins_nil_right {s : List Char} (h : Ins s []) : s = [] := by
  cases h
  rfl

theorem Ins_append {a b c d : List Char} (h₁ : Ins a b) (h₂ : Ins c d) :
    Ins (a ++ c) (b ++ d) := by
  induction h₁ with
  | nil => exact h₂
  | keep x h ih => exact Ins.keep x ih
  | ins x hx h ih => exact Ins.ins x hx ih

theorem Ins_length_le {s t : List Char} (h : Ins s t) : s.length ≤ t.length := by
  induction h with
  | nil => exact Nat.le_refl 0
  | keep x h ih => simpa using Nat.succ_le_succ ih
  | ins x hx h ih => exact Nat.le_trans ih (by simp)

theorem backslash_not_special : isSpecialMd '\\' = false := rfl

theorem Ins_no_extend : ∀ (x v : List Char), Ins x (x ++ v) → v = []
  | [], v, h => Ins_nil_left h
  | c :: s, v, h => by
    cases h with
    | keep _ h0 => exact Ins_no_extend s v h0
    | ins _ hc h0 =>
      -- the inserted backslash would have to equal the kept head `c`
      exact absurd hc (by simp_all [backslash_not_special])

theorem Ins_prefix_force {u t₁ t₂ w : List Char} (hi : Ins u t₁)
    (he : t₁ ++ t₂ = u ++ w) : t₁ = u ∧ t₂ = w := by
  have hp₁ : t₁ <+: u ++ w := ⟨t₂, he⟩
  have hp₂ : u <+: u ++ w := ⟨w, rfl⟩
  have hle : u.length ≤ t₁.length := Ins_length_le hi
  have hpre : u <+: t₁ := List.prefix_of_prefix_length_le hp₂ hp₁ hle
  rcases hpre with ⟨v, hv⟩
  have hv0 : v = [] := Ins_no_extend u v (by rw [hv]; exact hi)
  subst hv0
  have ht : t₁ = u := by simpa using hv.symm
  subst ht
  refine ⟨rfl, ?_⟩
  exact (List.append_cancel_left he)

/-! ### Lockstep lemmas for the matcher under insertions -/

theorem RelA_orElse {S T : List Char} {a b a' b' : Option (List Char)}
    (h₁ : RelA S T a b) (h₂ : RelA S T a' b') : RelA S T (a <|> a') (b <|> b') := by
  rcases h₁ with ⟨ha, hb⟩ | ⟨u, v, c, c', ha, hb, hins, hcc, hcu, hcv⟩
  · rw [ha, hb]
    simpa using h₂
  · rw [ha, hb]
    exact Or.inr ⟨u, v, c, c', by simp, by simp, hins, hcc, hcu, hcv⟩

theorem KCompatA_extend {S T s t s' t' c₀ c₀' : List Char}
    {k₁ k₂ : List Char → Option (List Char)} (hk : KCompatA S T s t k₁ k₂)
    (hc : Ins c₀ c₀') (hs : c₀ ++ s' = s) (ht : c₀' ++ t' = t) :
    KCompatA S T s' t' k₁ k₂ := by
  intro r r' hins ⟨c, c', hcc, hcr, hcr'⟩
  refine hk r r' hins ⟨c₀ ++ c, c₀' ++ c', Ins_append hc hcc, ?_, ?_⟩
  · rw [List.append_assoc, hcr, hs]
  · rw [List.append_assoc, hcr', ht]

theorem starIter_fuel_indep
    (m : List Char → (List Char → Option (List Char)) → Option (List Char)) :
    ∀ (n n' : ℕ) (s : List Char) (k : List Char → Option (List Char)),
      s.length < n → s.length < n' → starIter m n s k = starIter m n' s k := by
  intro n
  induction n using Nat.strong_induction_on with
  | _ n ih =>
    intro n' s k hn hn'
    match n, hn with
    | n₀ + 1, _ =>
      match n', hn' with
      | n₀' + 1, _ =>
        simp only [starIter]
        have harg : (fun r => if r.length < s.length then starIter m n₀ r k else none)
            = (fun r => if r.length < s.length then starIter m n₀' r k else none) := by
          funext r
          by_cases hr : r.length < s.length
          · rw [if_pos hr, if_pos hr]
            exact ih n₀ (Nat.lt_succ_self n₀) n₀' r k (by omega) (by omega)
          · rw [if_neg hr, if_neg hr]
        rw [harg]

theorem matchM_star_unfold (a : RE) (s : List Char)
    (k : List Char → Option (List Char)) :
    matchM (RE.star a) s k
      = ((matchM a s (fun r =>
          if r.length < s.length then matchM (RE.star a) r k else none)) <|> k s) := by
  have h1 : matchM (RE.star a) s k
      = starIter (fun t k' => matchM a t k') (s.length + 1) s k := rfl
  rw [h1, starIter]
  have harg : (fun r => if r.length < s.length
        then starIter (fun t k' => matchM a t k') s.length r k else none)
      = (fun r => if r.length < s.length then matchM (RE.star a) r k else none) := by
    funext r
    by_cases hr : r.length < s.length
    · rw [if_pos hr, if_pos hr]
      exact starIter_fuel_indep _ s.length (r.length + 1) r k (by omega) (by omega)
    · rw [if_neg hr, if_neg hr]
  rw [harg]

theorem isSpecialMd_cases {c : Char} (h : isSpecialMd c = true) :
    c = '*' ∨ c = '_' ∨ c = '~' := by
  simp only [isSpecialMd, Bool.or_eq_true, beq_iff_eq] at h
  tauto

theorem matchM_rigid_star_rel (a : RE)
    (ha : ∀ (S T s t : List Char), Ins s t →
      ∀ k₁ k₂, KCompatA S T s t k₁ k₂ → RelA S T (matchM a s k₁) (matchM a t k₂)) :
    ∀ (n : ℕ) (S T s t : List Char), s.length ≤ n → Ins s t →
    ∀ k₁ k₂, KCompatA S T s t k₁ k₂ →
    RelA S T (matchM (RE.star a) s k₁) (matchM (RE.star a) t k₂) := by
  intro n
  induction n using Nat.strong_induction_on with
  | _ n ih =>
    intro S T s t hlen hins k₁ k₂ hk
    rw [matchM_star_unfold, matchM_star_unfold]
    apply RelA_orElse
    · apply ha S T s t hins
      rintro r r' hrr ⟨c, c', hcc, hcr, hcr'⟩
      beta_reduce
      by_cases hc0 : c = []
      · subst hc0
        have hc'0 : c' = [] := Ins_nil_left hcc
        subst hc'0
        simp only [List.nil_append] at hcr hcr'
        subst hcr
        subst hcr'
        rw [if_neg (by omega), if_neg (by omega)]
        exact Or.inl ⟨rfl, rfl⟩
      · have hc'0 : c' ≠ [] := by
          intro h0
          subst h0
          exact hc0 (Ins_nil_right hcc)
        have hrlen : r.length < s.length := by
          have := congrArg List.length hcr
          simp only [List.length_append] at this
          have : c.length ≠ 0 := by simpa using hc0
          omega
        have hr'len : r'.length < t.length := by
          have := congrArg List.length hcr'
          simp only [List.length_append] at this
          have : c'.length ≠ 0 := by simpa using hc'0
          omega
        rw [if_pos hrlen, if_pos hr'len]
        rcases Nat.lt_or_ge r.length n with hn' | hn'
        · exact ih r.length (by omega) S T r r' (Nat.le_refl _) hrr k₁ k₂
            (KCompatA_extend hk hcc hcr hcr')
        · exact absurd (Nat.lt_of_lt_of_le hrlen hlen) (by omega)
    · exact hk s t hins ⟨[], [], Ins.nil, rfl, rfl⟩

theorem matchM_rigid_rel : ∀ (re : RE), rigidRE re = true →
    ∀ (S T s t : List Char), Ins s t →
    ∀ (k₁ k₂ : List Char → Option (List Char)), KCompatA S T s t k₁ k₂ →
    RelA S T (matchM re s k₁) (matchM re t k₂)
  | RE.chr p, hrig => by
    intro S T s t hins k₁ k₂ hk
    simp only [rigidRE, Bool.and_eq_true, Bool.not_eq_true'] at hrig
    cases hins with
    | nil =>
      exact Or.inl ⟨by simp [matchM], by simp [matchM]⟩
    | keep c hins0 =>
      simp only [matchM]
      by_cases hp : p c = true
      · rw [if_pos hp, if_pos hp]
        exact hk _ _ hins0 ⟨[c], [c], Ins.keep c Ins.nil, rfl, rfl⟩
      · rw [if_neg hp, if_neg hp]
        exact Or.inl ⟨rfl, rfl⟩
    | ins c hcspec hins0 =>
      simp only [matchM]
      have hpc : p c = false := by
        rcases isSpecialMd_cases hcspec with rfl | rfl | rfl
        · exact hrig.1.1.2
        · exact hrig.1.2
        · exact hrig.2
      have hpb : p '\\' = false := hrig.1.1.1
      rw [if_neg (by simp [hpc]), if_neg (by simp [hpb])]
      exact Or.inl ⟨rfl, rfl⟩
  | RE.eps, _ => by
    intro S T s t hins k₁ k₂ hk
    exact hk s t hins ⟨[], [], Ins.nil, rfl, rfl⟩
  | RE.seq a b, hrig => by
    intro S T s t hins k₁ k₂ hk
    simp only [rigidRE, Bool.and_eq_true] at hrig
    simp only [matchM]
    apply matchM_rigid_rel a hrig.1 S T s t hins
    rintro r r' hrr ⟨c, c', hcc, hcr, hcr'⟩
    exact matchM_rigid_rel b hrig.2 S T r r' hrr _ _ (KCompatA_extend hk hcc hcr hcr')
  | RE.alt a b, hrig => by
    intro S T s t hins k₁ k₂ hk
    simp only [rigidRE, Bool.and_eq_true] at hrig
    simp only [matchM]
    exact RelA_orElse (matchM_rigid_rel a hrig.1 S T s t hins k₁ k₂ hk)
      (matchM_rigid_rel b hrig.2 S T s t hins k₁ k₂ hk)
  | RE.opt a, hrig => by
    intro S T s t hins k₁ k₂ hk
    simp only [rigidRE] at hrig
    simp only [matchM]
    exact RelA_orElse (matchM_rigid_rel a hrig S T s t hins k₁ k₂ hk)
      (hk s t hins ⟨[], [], Ins.nil, rfl, rfl⟩)
  | RE.star a, hrig => by
    intro S T s t hins k₁ k₂ hk
    simp only [rigidRE] at hrig
    exact matchM_rigid_star_rel a
      (fun S T s t h k₁ k₂ hk => matchM_rigid_rel a hrig S T s t h k₁ k₂ hk)
      s.length S T s t (Nat.le_refl _) hins k₁ k₂ hk

theorem orElse_none_eq (x : Option (List Char)) : (x <|> none) = x := by
  cases x with
  | none => rfl
  | some v => rfl

theorem sstar_nil (k : List Char → Option (List Char)) : matchM reSstar [] k = k [] := by
  simp only [reSstar]
  rw [matchM_star_unfold]
  simp [matchM]

theorem sstar_cons_space (c : Char) (hc : isNonSpace c = false) (s₀ : List Char)
    (k : List Char → Option (List Char)) :
    matchM reSstar (c :: s₀) k = k (c :: s₀) := by
  simp only [reSstar]
  rw [matchM_star_unfold]
  simp [matchM, hc]

theorem sstar_cons_nonspace (c : Char) (hc : isNonSpace c = true) (s₀ : List Char)
    (k : List Char → Option (List Char)) :
    matchM reSstar (c :: s₀) k = ((matchM reSstar s₀ k) <|> k (c :: s₀)) := by
  simp only [reSstar]
  rw [matchM_star_unfold]
  simp only [matchM, hc, if_true, List.length_cons, Nat.lt_succ_self, if_pos]

theorem special_nonspace {c : Char} (hc : isSpecialMd c = true) : isNonSpace c = true := by
  rcases isSpecialMd_cases hc with rfl | rfl | rfl
  · decide
  · decide
  · decide

theorem dead_head_beq {c : Char} (hc : isSpecialMd c = true ∨ c = '\\') (d : Char)
    (hd : d = ':' ∨ d = '@' ∨ d = '/') : (c == d) = false := by
  rcases hc with hc | rfl
  · rcases isSpecialMd_cases hc with rfl | rfl | rfl
    all_goals rcases hd with rfl | rfl | rfl
    all_goals decide
  · rcases hd with rfl | rfl | rfl
    all_goals decide

theorem Ins_head_dead {c : Char} {s₀ t₀ : List Char} (hc : isSpecialMd c = true)
    (h : Ins (c :: s₀) t₀) (k : List Char → Option (List Char))
    (hd : DeadRejecting k) : k t₀ = none := by
  cases h with
  | keep _ h0 => exact hd.2 c _ (Or.inl hc)
  | ins _ hs h0 => exact hd.2 '\\' _ (Or.inr rfl)

theorem cons_eq_append_shape {d r s₀ : List Char} {c : Char} (hd : d ≠ [])
    (h : d ++ r = c :: s₀) : ∃ d₀, d = c :: d₀ ∧ d₀ ++ r = s₀ := by
  cases d with
  | nil => exact absurd rfl hd
  | cons e d₀ =>
    simp only [List.cons_append, List.cons.injEq] at h
    exact ⟨d₀, by rw [h.1], h.2⟩

theorem sstar_rel : ∀ {s t : List Char}, Ins s t → ∀ (S T : List Char)
    (k₁ k₂ : List Char → Option (List Char)),
    KCompatA S T s t k₁ k₂ → DeadRejecting k₁ → DeadRejecting k₂ →
    RelA S T (matchM reSstar s k₁) (matchM reSstar t k₂) := by
  intro s t hins
  induction hins with
  | nil =>
    intro S T k₁ k₂ hk hd₁ hd₂
    rw [sstar_nil, sstar_nil, hd₁.1, hd₂.1]
    exact Or.inl ⟨rfl, rfl⟩
  | keep c hins0 ih =>
    intro S T k₁ k₂ hk hd₁ hd₂
    by_cases hc : isNonSpace c = true
    · rw [sstar_cons_nonspace c hc, sstar_cons_nonspace c hc]
      apply RelA_orElse
      · exact ih S T k₁ k₂ (KCompatA_extend hk (Ins.keep c Ins.nil) rfl rfl) hd₁ hd₂
      · exact hk _ _ (Ins.keep c hins0) ⟨[], [], Ins.nil, rfl, rfl⟩
    · have hc' : isNonSpace c = false := by simpa using hc
      rw [sstar_cons_space c hc', sstar_cons_space c hc']
      exact hk _ _ (Ins.keep c hins0) ⟨[], [], Ins.nil, rfl, rfl⟩
  | ins c hcspec hins0 ih =>
    intro S T k₁ k₂ hk hd₁ hd₂
    rw [sstar_cons_nonspace '\\' (by decide)]
    rw [hd₂.2 '\\' _ (Or.inr rfl), orElse_none_eq]
    apply ih S T k₁ k₂ ?_ hd₁ hd₂
    rintro r r' hrr ⟨d, d', hdd, hdr, hdr'⟩
    by_cases hd0 : d = []
    · subst hd0
      have hd'0 : d' = [] := Ins_nil_left hdd
      subst hd'0
      simp only [List.nil_append] at hdr hdr'
      subst hdr
      subst hdr'
      rw [hd₁.2 c _ (Or.inl hcspec), Ins_head_dead hcspec hins0 k₂ hd₂]
      exact Or.inl ⟨rfl, rfl⟩
    · rcases cons_eq_append_shape hd0 hdr with ⟨d₀, rfl, hdr0⟩
      refine hk r r' hrr ⟨c :: d₀, '\\' :: d', Ins.ins c hcspec hdd, hdr, ?_⟩
      simp only [List.cons_append, List.cons.injEq, true_and]
      exact hdr'

theorem sstar_rel_lag : ∀ {l t : List Char}, Ins l t → ∀ (c : Char) (s₀ : List Char),
    l = c :: s₀ → isSpecialMd c = true → ∀ (S T : List Char)
    (k₁ k₂ : List Char → Option (List Char)),
    KCompatA S T l t k₁ k₂ → DeadRejecting k₁ → DeadRejecting k₂ →
    RelA S T (matchM reSstar s₀ k₁) (matchM reSstar t k₂) := by
  intro l t hins
  induction hins with
  | nil =>
    intro c s₀ heq
    exact absurd heq (by simp)
  | keep c' hins0 ih =>
    intro c s₀ heq hc S T k₁ k₂ hk hd₁ hd₂
    injection heq with h1 h2
    subst h1
    subst h2
    rw [sstar_cons_nonspace c' (special_nonspace hc)]
    rw [hd₂.2 c' _ (Or.inl hc), orElse_none_eq]
    exact sstar_rel hins0 S T k₁ k₂
      (KCompatA_extend hk (Ins.keep c' Ins.nil) rfl rfl) hd₁ hd₂
  | ins c' hspec hins0 ih =>
    intro c s₀ heq hc S T k₁ k₂ hk hd₁ hd₂
    rw [sstar_cons_nonspace '\\' (by decide)]
    rw [hd₂.2 '\\' _ (Or.inr rfl), orElse_none_eq]
    apply ih c s₀ heq hc S T k₁ k₂ ?_ hd₁ hd₂
    rintro r r' hrr ⟨d, d', hdd, hdr, hdr'⟩
    by_cases hd0 : d = []
    · subst hd0
      have hd'0 : d' = [] := Ins_nil_left hdd
      subst hd'0
      simp only [List.nil_append] at hdr hdr'
      subst hdr
      subst hdr'
      rw [hd₁.2 c' _ (Or.inl hspec), Ins_head_dead hspec hins0 k₂ hd₂]
      exact Or.inl ⟨rfl, rfl⟩
    · rcases cons_eq_append_shape hd0 hdr with ⟨d₀, rfl, hdr0⟩
      refine hk r r' hrr ⟨c' :: d₀, '\\' :: d', Ins.ins c' hspec hdd, hdr, ?_⟩
      simp only [List.cons_append, List.cons.injEq, true_and]
      exact hdr'

theorem at_dead (k : List Char → Option (List Char)) :
    DeadRejecting (fun r2 => matchM (reCh '@') r2 k) := by
  constructor
  · rfl
  · intro c r hc
    show matchM (reCh '@') (c :: r) k = none
    have h2 : (c == '@') = false := dead_head_beq hc '@' (Or.inr (Or.inl rfl))
    simp [matchM, reCh, h2]

theorem colonAt_dead (k : List Char → Option (List Char)) :
    DeadRejecting (fun r => matchM (RE.seq reColonPart (reCh '@')) r k) := by
  constructor
  · rfl
  · intro c r hc
    show matchM (RE.seq reColonPart (reCh '@')) (c :: r) k = none
    have h1 : (c == ':') = false := dead_head_beq hc ':' (Or.inl rfl)
    have h2 : (c == '@') = false := dead_head_beq hc '@' (Or.inr (Or.inl rfl))
    simp [matchM, reColonPart, reCh, h1, h2]

theorem rigid_at : rigidRE (reCh '@') = true := by decide

theorem colonAt_rel {S T r r' : List Char} (hrr : Ins r r')
    (k₁ k₂ : List Char → Option (List Char)) (hk : KCompatA S T r r' k₁ k₂) :
    RelA S T (matchM (RE.seq reColonPart (reCh '@')) r k₁)
      (matchM (RE.seq reColonPart (reCh '@')) r' k₂) := by
  have e : ∀ (r : List Char) (k : List Char → Option (List Char)),
      matchM (RE.seq reColonPart (reCh '@')) r k
        = ((matchM (RE.chr (fun d => d == ':')) r
              (fun r1 => matchM reSstar r1 (fun r2 => matchM (reCh '@') r2 k)))
           <|> matchM (reCh '@') r k) := fun r k => rfl
  rw [e r k₁, e r' k₂]
  apply RelA_orElse
  · cases hrr with
    | nil =>
      exact Or.inl ⟨rfl, rfl⟩
    | keep c hins0 =>
      simp only [matchM]
      by_cases hcq : (c == ':') = true
      · rw [if_pos hcq, if_pos hcq]
        apply sstar_rel hins0 S T _ _ ?_ (at_dead k₁) (at_dead k₂)
        rintro r2 r2' h2 ⟨d, d', hdd, hdr, hdr'⟩
        apply matchM_rigid_rel (reCh '@') rigid_at S T r2 r2' h2 k₁ k₂
        apply KCompatA_extend hk (Ins.keep c hdd) ?_ ?_
        · show c :: (d ++ r2) = _
          rw [hdr]
        · show c :: (d' ++ r2') = _
          rw [hdr']
      · have hcq' : (c == ':') = false := by simpa using hcq
        rw [if_neg (by simp [hcq']), if_neg (by simp [hcq'])]
        exact Or.inl ⟨rfl, rfl⟩
    | ins c hcspec hins0 =>
      simp only [matchM]
      have h1 : (c == ':') = false := dead_head_beq (Or.inl hcspec) ':' (Or.inl rfl)
      have h2 : (('\\' : Char) == ':') = false := by decide
      rw [if_neg (by simp [h1]), if_neg (by simp [h2])]
      exact Or.inl ⟨rfl, rfl⟩
  · exact matchM_rigid_rel (reCh '@') rigid_at S T r r' hrr k₁ k₂ hk

theorem userinfo_rel {S T s t : List Char} (hins : Ins s t)
    (k₁ k₂ : List Char → Option (List Char)) (hk : KCompatA S T s t k₁ k₂) :
    RelA S T (matchM reUserinfo s k₁) (matchM reUserinfo t k₂) := by
  have e : ∀ (s : List Char) (k : List Char → Option (List Char)),
      matchM reUserinfo s k
        = ((matchM (RE.chr isNonSpace) s
              (fun r0 => matchM reSstar r0
                (fun r => matchM (RE.seq reColonPart (reCh '@')) r k)))
           <|> k s) := fun s k => rfl
  rw [e s k₁, e t k₂]
  apply RelA_orElse ?_ (hk s t hins ⟨[], [], Ins.nil, rfl, rfl⟩)
  cases hins with
  | nil =>
    exact Or.inl ⟨rfl, rfl⟩
  | keep c hins0 =>
    simp only [matchM]
    by_cases hcn : isNonSpace c = true
    · rw [if_pos hcn, if_pos hcn]
      apply sstar_rel hins0 S T _ _ ?_ (colonAt_dead k₁) (colonAt_dead k₂)
      rintro r r' hrr ⟨d, d', hdd, hdr, hdr'⟩
      apply colonAt_rel hrr k₁ k₂
      apply KCompatA_extend hk (Ins.keep c hdd) ?_ ?_
      · show c :: (d ++ r) = _
        rw [hdr]
      · show c :: (d' ++ r') = _
        rw [hdr']
    · rw [if_neg hcn, if_neg hcn]
      exact Or.inl ⟨rfl, rfl⟩
  | ins c hcspec hins0 =>
    simp only [matchM]
    rw [if_pos (special_nonspace hcspec), if_pos (show isNonSpace '\\' = true by decide)]
    apply sstar_rel_lag hins0 c _ rfl hcspec S T _ _ ?_
      (colonAt_dead k₁) (colonAt_dead k₂)
    rintro r r' hrr ⟨d, d', hdd, hdr, hdr'⟩
    by_cases hd0 : d = []
    · subst hd0
      have hd'0 : d' = [] := Ins_nil_left hdd
      subst hd'0
      simp only [List.nil_append] at hdr hdr'
      subst hdr
      subst hdr'
      beta_reduce
      rw [show matchM (RE.seq reColonPart (reCh '@')) (c :: _) k₁ = none from
          (colonAt_dead k₁).2 c _ (Or.inl hcspec),
        show matchM (RE.seq reColonPart (reCh '@')) _ k₂ = none from
          Ins_head_dead hcspec hins0 _ (colonAt_dead k₂)]
      exact Or.inl ⟨rfl, rfl⟩
    · rcases cons_eq_append_shape hd0 hdr with ⟨d₀, rfl, hdr0⟩
      apply colonAt_rel hrr k₁ k₂
      apply KCompatA_extend hk (Ins.ins c hcspec hdd) hdr ?_
      show '\\' :: (d' ++ r') = _
      rw [hdr']

theorem matchM_chr_cons (p : Char → Bool) (d : Char) (w : List Char)
    (k : List Char → Option (List Char)) :
    matchM (RE.chr p) (d :: w) k = if p d then k w else none := rfl

theorem matchM_chr_nil (p : Char → Bool) (k : List Char → Option (List Char)) :
    matchM (RE.chr p) [] k = none := rfl

theorem sstar_total_eval : ∀ (s : List Char),
    matchM reSstar s (fun v => some v) = some (s.dropWhile isNonSpace)
  | [] => by
    rw [sstar_nil]
    simp
  | c :: s₀ => by
    by_cases hc : isNonSpace c = true
    · rw [sstar_cons_nonspace c hc, sstar_total_eval s₀]
      simp [List.dropWhile_cons, hc]
    · have hc' : isNonSpace c = false := by simpa using hc
      rw [sstar_cons_space c hc']
      simp [List.dropWhile_cons, hc']

theorem Ins_takeWhile_dropWhile : ∀ {s t : List Char}, Ins s t →
    Ins (s.takeWhile isNonSpace) (t.takeWhile isNonSpace)
    ∧ Ins (s.dropWhile isNonSpace) (t.dropWhile isNonSpace) := by
  intro s t hins
  induction hins with
  | nil =>
    exact ⟨Ins.nil, Ins.nil⟩
  | keep c h0 ih =>
    by_cases hc : isNonSpace c = true
    · simp only [List.takeWhile_cons, List.dropWhile_cons, hc, if_true]
      exact ⟨Ins.keep c ih.1, ih.2⟩
    · simp only [List.takeWhile_cons, List.dropWhile_cons, hc, if_false,
        Bool.false_eq_true]
      exact ⟨Ins.nil, Ins.keep c h0⟩
  | ins c hcspec h0 ih =>
    have hcn : isNonSpace c = true := special_nonspace hcspec
    have hbn : isNonSpace '\\' = true := by decide
    simp only [List.takeWhile_cons, List.dropWhile_cons, hcn, hbn, if_true]
    constructor
    · have h1 := ih.1
      rw [List.takeWhile_cons, if_pos hcn] at h1
      exact Ins.ins c hcspec h1
    · have h2 := ih.2
      rw [List.dropWhile_cons, if_pos hcn] at h2
      exact h2

theorem path_rel {S T w w' : List Char} (hins : Ins w w')
    (halign : ∃ c c', Ins c c' ∧ c ++ w = S ∧ c' ++ w' = T) :
    RelA S T (matchM rePath w (fun v => some v))
      (matchM rePath w' (fun v => some v)) := by
  have e : ∀ (w : List Char), matchM rePath w (fun v => some v)
      = ((matchM (RE.chr (fun d => d == '/')) w
            (fun r1 => matchM reSstar r1 (fun v => some v)))
         <|> some w) := fun w => rfl
  rw [e w, e w']
  rcases halign with ⟨c, c', hcc, hcw, hcw'⟩
  apply RelA_orElse
  · cases hins with
    | nil =>
      exact Or.inl ⟨rfl, rfl⟩
    | keep d hins0 =>
      rename_i w₀ w₀'
      rw [matchM_chr_cons, matchM_chr_cons]
      by_cases hdq : (d == '/') = true
      · rw [if_pos hdq, if_pos hdq]
        rw [sstar_total_eval w₀, sstar_total_eval w₀']
        right
        refine ⟨w₀.dropWhile isNonSpace, w₀'.dropWhile isNonSpace,
          c ++ d :: w₀.takeWhile isNonSpace, c' ++ d :: w₀'.takeWhile isNonSpace,
          rfl, rfl, (Ins_takeWhile_dropWhile hins0).2,
          Ins_append hcc (Ins.keep d (Ins_takeWhile_dropWhile hins0).1), ?_, ?_⟩
        · rw [List.append_assoc, ← hcw]
          simp [List.takeWhile_append_dropWhile]
        · rw [List.append_assoc, ← hcw']
          simp [List.takeWhile_append_dropWhile]
      · have hdq' : (d == '/') = false := by simpa using hdq
        rw [if_neg (by simp [hdq']), if_neg (by simp [hdq'])]
        exact Or.inl ⟨rfl, rfl⟩
    | ins d hdspec hins0 =>
      rw [matchM_chr_cons, matchM_chr_cons]
      have h1 : (d == '/') = false :=
        dead_head_beq (Or.inl hdspec) '/' (Or.inr (Or.inr rfl))
      have h2 : (('\\' : Char) == '/') = false := by decide
      rw [if_neg (by simp [h1]), if_neg (by simp [h2])]
      exact Or.inl ⟨rfl, rfl⟩
  · exact Or.inr ⟨w, w', c, c', rfl, rfl, hins, hcc, hcw, hcw'⟩

theorem rigid_scheme : rigidRE reScheme = true := by decide

theorem rigid_host : rigidRE reHost = true := by decide

theorem rigid_port : rigidRE rePort = true := by decide

/-- Lockstep invariance of the whole URL matcher under markdown-escape
insertions: on insertion-related inputs, both attempts fail together or
succeed with insertion-related consumed prefixes and residuals. -/
theorem matchAt_rel {s t : List Char} (hins : Ins s t) :
    RelA s t (matchAt s) (matchAt t) := by
  have e : ∀ (s : List Char), matchAt s
      = matchM reScheme s (fun r1 => matchM reUserinfo r1 (fun r2 =>
          matchM reHost r2 (fun r3 => matchM rePort r3 (fun r4 =>
            matchM rePath r4 (fun v => some v))))) := fun s => rfl
  rw [e s, e t]
  apply matchM_rigid_rel reScheme rigid_scheme s t s t hins
  rintro r1 r1' h1 ⟨c, c', hcc, hcr, hcr'⟩
  apply userinfo_rel h1
  rintro r2 r2' h2 ⟨d, d', hdd, hdr, hdr'⟩
  apply matchM_rigid_rel reHost rigid_host s t r2 r2' h2
  rintro r3 r3' h3 ⟨f, f', hff, hfr, hfr'⟩
  apply matchM_rigid_rel rePort rigid_port s t r3 r3' h3
  rintro r4 r4' h4 ⟨g, g', hgg, hgr, hgr'⟩
  apply path_rel h4
  refine ⟨c ++ (d ++ (f ++ g)), c' ++ (d' ++ (f' ++ g')),
    Ins_append hcc (Ins_append hdd (Ins_append hff hgg)), ?_, ?_⟩
  · simp only [List.append_assoc]
    rw [hgr, hfr, hdr, hcr]
  · simp only [List.append_assoc]
    rw [hgr', hfr', hdr', hcr']

/-! ### The split under escaping -/

theorem reSplitF_fuel_indep : ∀ (n n' : ℕ) (s : List Char),
    s.length < n → s.length < n' → reSplitF n s = reSplitF n' s := by
  intro n
  induction n using Nat.strong_induction_on with
  | _ n ihn =>
    intro n' s hn hn'
    match n, hn with
    | n₀ + 1, hn₀ =>
      match n', hn' with
      | n₀' + 1, hn₀' =>
        rcases hm : matchAtSplit s with _ | ⟨u, r⟩
        · cases s with
          | nil => rfl
          | cons c s' =>
            rw [reSplitF_succ, reSplitF_succ, hm]
            show consHead c (reSplitF n₀ s') = consHead c (reSplitF n₀' s')
            rw [ihn n₀ (Nat.lt_succ_self n₀) n₀' s'
              (by simp at hn₀; omega) (by simp at hn₀'; omega)]
        · rcases matchAtSplit_parts s u r hm with ⟨_, _, hlen⟩
          rw [reSplitF_succ, reSplitF_succ, hm]
          show [] :: u :: reSplitF n₀ r = [] :: u :: reSplitF n₀' r
          rw [ihn n₀ (Nat.lt_succ_self n₀) n₀' r (by omega) (by omega)]

theorem reSplit_eq_match {s u r : List Char} (hm : matchAtSplit s = some (u, r)) :
    reSplit s = [] :: u :: reSplit r := by
  rcases matchAtSplit_parts s u r hm with ⟨_, _, hlen⟩
  show reSplitF (s.length + 1) s = _
  rw [reSplitF_succ, hm]
  show [] :: u :: reSplitF s.length r = _
  rw [reSplitF_fuel_indep s.length (r.length + 1) r (by omega) (by omega)]
  rfl

theorem reSplit_eq_gap {c : Char} {s' : List Char}
    (hm : matchAtSplit (c :: s') = none) :
    reSplit (c :: s') = consHead c (reSplit s') := by
  show reSplitF ((c :: s').length + 1) (c :: s') = _
  rw [reSplitF_succ, hm]
  rfl

theorem matchAtSplit_backslash (r : List Char) : matchAtSplit ('\\' :: r) = none := rfl

theorem escC_special {c : Char} (h : isSpecialMd c = true) : escC c = ['\\', c] := by
  unfold escC
  rw [if_pos (isSpecialMd_cases h)]

theorem escC_plain {c : Char} (h : isSpecialMd c = false) : escC c = [c] := by
  unfold escC
  rw [if_neg]
  intro hc
  rcases hc with rfl | rfl | rfl
  all_goals simp [isSpecialMd] at h

theorem escapeMd_cons (c : Char) (rest : List Char) :
    escapeMd (c :: rest) = escC c ++ escapeMd rest := by
  by_cases h1 : c = '*'
  · subst h1
    simp [escapeMd, replaceChar, escC]
  · by_cases h2 : c = '_'
    · subst h2
      simp [escapeMd, replaceChar, escC]
    · by_cases h3 : c = '~'
      · subst h3
        simp [escapeMd, replaceChar, escC]
      · simp [escapeMd, replaceChar, escC, h1, h2, h3]

theorem escapeMd_eq_flat (s : List Char) : escapeMd s = (s.map escC).flatten := by
  induction s with
  | nil => rfl
  | cons c rest ih =>
    rw [escapeMd_cons, ih]
    simp

theorem out_eq_match {s u r : List Char} (hm : matchAtSplit s = some (u, r)) :
    escapeUrlAware s = u ++ escapeUrlAware r := by
  unfold escapeUrlAware
  rw [reSplit_eq_match hm]
  show escapeMd [] ++ (u ++ joinEscAux false (reSplit r)) = _
  rfl

theorem out_eq_gap {c : Char} {s' : List Char} (hm : matchAtSplit (c :: s') = none) :
    escapeUrlAware (c :: s') = escC c ++ escapeUrlAware s' := by
  unfold escapeUrlAware
  rw [reSplit_eq_gap hm]
  cases hL : reSplit s' with
  | nil => exact absurd hL (reSplitF_ne_nil _ _)
  | cons g rest =>
    show joinEscAux false ((c :: g) :: rest) = escC c ++ joinEscAux false (g :: rest)
    show escapeMd (c :: g) ++ joinEscAux true rest = _
    rw [escapeMd_cons]
    simp [joinEscAux]

theorem out_nil : escapeUrlAware [] = [] := rfl

theorem Ins_out : ∀ (n : ℕ) (s : List Char), s.length ≤ n →
    Ins s (escapeUrlAware s) := by
  intro n
  induction n with
  | zero =>
    intro s hs
    have : s = [] := List.eq_nil_of_length_eq_zero (Nat.le_zero.mp hs)
    subst this
    rw [out_nil]
    exact Ins.nil
  | succ n ih =>
    intro s hs
    rcases hm : matchAtSplit s with _ | ⟨u, r⟩
    · cases s with
      | nil =>
        rw [out_nil]
        exact Ins.nil
      | cons c s' =>
        rw [out_eq_gap hm]
        have hrec := ih s' (by simpa using Nat.le_of_succ_le_succ hs)
        by_cases hsp : isSpecialMd c = true
        · rw [escC_special hsp]
          exact Ins.ins c hsp (Ins.keep c hrec)
        · rw [escC_plain (by simpa using hsp)]
          exact Ins.keep c hrec
    · rcases matchAtSplit_parts s u r hm with ⟨hur, _, hlen⟩
      rw [out_eq_match hm, ← hur]
      exact Ins_append (Ins.refl u) (ih r (by omega))

theorem reSplit_out : ∀ (n : ℕ) (s : List Char), s.length ≤ n →
    reSplit (escapeUrlAware s) = mapEscParts false (reSplit s) := by
  intro n
  induction n with
  | zero =>
    intro s hs
    have : s = [] := List.eq_nil_of_length_eq_zero (Nat.le_zero.mp hs)
    subst this
    rfl
  | succ n ih =>
    intro s hs
    rcases hm : matchAtSplit s with _ | ⟨u, r⟩
    · cases s with
      | nil => rfl
      | cons c s' =>
        have hmn : matchAt (c :: s') = none := by
          rcases hx : matchAt (c :: s') with _ | v
          · rfl
          · simp [matchAtSplit, hx] at hm
        have hrel := matchAt_rel
          (Ins.keep c (Ins_out s'.length s' (Nat.le_refl _)))
        have hmn' : matchAt (c :: escapeUrlAware s') = none := by
          rcases hrel with ⟨_, h2⟩ | ⟨u₁, v₁, c₁, c₁', h1, _, _, _, _, _⟩
          · exact h2
          · rw [hmn] at h1
            exact absurd h1 (by simp)
        have hms' : matchAtSplit (c :: escapeUrlAware s') = none := by
          simp [matchAtSplit, hmn']
        have hlen' : s'.length ≤ n := by simpa using Nat.le_of_succ_le_succ hs
        rw [out_eq_gap hm]
        by_cases hsp : isSpecialMd c = true
        · rw [escC_special hsp]
          show reSplit ('\\' :: (c :: escapeUrlAware s')) = _
          rw [reSplit_eq_gap (matchAtSplit_backslash _), reSplit_eq_gap hms',
            ih s' hlen', reSplit_eq_gap hm]
          cases hL : reSplit s' with
          | nil => exact absurd hL (reSplitF_ne_nil _ _)
          | cons g rest =>
            show consHead '\\' (consHead c (mapEscParts false (g :: rest)))
              = mapEscParts false ((c :: g) :: rest)
            show consHead '\\' (consHead c (escapeMd g :: mapEscParts true rest)) = _
            show ('\\' :: c :: escapeMd g) :: mapEscParts true rest = _
            show _ = escapeMd (c :: g) :: mapEscParts true rest
            rw [escapeMd_cons, escC_special hsp]
            rfl
        · rw [escC_plain (by simpa using hsp)]
          show reSplit (c :: escapeUrlAware s') = _
          rw [reSplit_eq_gap hms', ih s' hlen', reSplit_eq_gap hm]
          cases hL : reSplit s' with
          | nil => exact absurd hL (reSplitF_ne_nil _ _)
          | cons g rest =>
            show consHead c (mapEscParts false (g :: rest))
              = mapEscParts false ((c :: g) :: rest)
            show (c :: escapeMd g) :: mapEscParts true rest
              = escapeMd (c :: g) :: mapEscParts true rest
            rw [escapeMd_cons, escC_plain (by simpa using hsp)]
            rfl
    · rcases matchAtSplit_parts s u r hm with ⟨hur, hma, hlen⟩
      rw [out_eq_match hm]
      have hino : Ins s (u ++ escapeUrlAware r) := by
        rw [← hur]
        exact Ins_append (Ins.refl u) (Ins_out r.length r (Nat.le_refl _))
      rcases matchAt_rel hino with ⟨h1, _⟩ | ⟨u₁, v₁, c₁, c₁', h1, h2, hins₁, hcc₁, hc₁, hc₁'⟩
      · rw [hma] at h1
        exact absurd h1 (by simp)
      · rw [hma] at h1
        have hu₁ : u₁ = r := by simpa using h1.symm
        subst u₁
        have hc₁u : c₁ = u := by
          rw [← hur] at hc₁
          exact List.append_cancel_right hc₁
        subst c₁
        rcases Ins_prefix_force hcc₁ hc₁' with ⟨hc₁'u, hveq⟩
        subst hveq
        have hsp2 := matchAtSplit_of_matchAt u (escapeUrlAware r) h2
        rw [reSplit_eq_match hsp2, reSplit_eq_match hm, ih r (by omega)]
        show ([] : List Char) :: u :: mapEscParts false (reSplit r)
          = escapeMd [] :: u :: mapEscParts false (reSplit r)
        rfl

theorem urlsOfParts_mapEsc : ∀ (L : List (List Char)) (b : Bool),
    urlsOfParts b (mapEscParts b L) = urlsOfParts b L := by
  intro L
  induction L with
  | nil => intro b; rfl
  | cons p rest ih =>
    intro b
    cases b with
    | false =>
      show urlsOfParts false (escapeMd p :: mapEscParts true rest)
        = urlsOfParts false (p :: rest)
      show urlsOfParts true (mapEscParts true rest) = urlsOfParts true rest
      exact ih true
    | true =>
      show urlsOfParts true (p :: mapEscParts false rest)
        = urlsOfParts true (p :: rest)
      show p :: urlsOfParts false (mapEscParts false rest)
        = p :: urlsOfParts false rest
      rw [ih false]

/-- The central preservation theorem: the markdown escape never changes the
list of URL substrings the pattern detects. -/
theorem urlsOf_out (s : List Char) : urlsOf (escapeUrlAware s) = urlsOf s := by
  unfold urlsOf
  rw [reSplit_out s.length s (Nat.le_refl _), urlsOfParts_mapEsc]

theorem joinEscAux_eq_flat : ∀ (b : Bool) (L : List (List Char)),
    joinEscAux b L = (mapEscParts b L).flatten := by
  intro b L
  induction L generalizing b with
  | nil => rfl
  | cons p rest ih =>
    show (if b then p else escapeMd p) ++ joinEscAux (!b) rest
      = ((if b then p else escapeMd p) :: mapEscParts (!b) rest).flatten
    rw [List.flatten_cons, ih]

theorem mapEscParts_getElem : ∀ (L : List (List Char)) (b : Bool) (i : ℕ),
    (mapEscParts b L)[i]? = ((L)[i]?).map
      (fun p => if (i + b.toNat) % 2 = 1 then p else escapeMd p) := by
  intro L
  induction L with
  | nil => intro b i; simp [mapEscParts]
  | cons p rest ih =>
    intro b i
    cases i with
    | zero =>
      show ((if b then p else escapeMd p) :: mapEscParts (!b) rest)[0]? = _
      cases b <;> simp
    | succ j =>
      show ((if b then p else escapeMd p) :: mapEscParts (!b) rest)[j+1]? = _
      simp only [List.getElem?_cons_succ]
      rw [ih (!b) j]
      have hc : ((j + (!b).toNat) % 2 = 1) ↔ ((j + 1 + b.toNat) % 2 = 1) := by
        cases b
        · show (j + 1) % 2 = 1 ↔ (j + 1 + 0) % 2 = 1
          omega
        · show (j + 0) % 2 = 1 ↔ (j + 1 + 1) % 2 = 1
          omega
      have hf : (fun p => if (j + (!b).toNat) % 2 = 1 then p else escapeMd p)
          = (fun p : List Char => if (j + 1 + b.toNat) % 2 = 1 then p else escapeMd p) := by
        funext q
        exact if_congr hc rfl rfl
      rw [hf]

/-- C5: for `message_type="normal"` (and `"action"`) `send_chat` splits the
message on the URL pattern: the text actually sent is the concatenation of the
split parts with every gap (even-index) part markdown-escaped and every URL
(odd-index) part left byte-for-byte untouched — `"action"` additionally wraps
in underscores and `"normal"` may prepend the neutral `]` —; the split parts
reassemble to the original message; the markdown escape inserts a leading
backslash before exactly the characters `*`, `_`, `~`; every odd-index part is
a genuine match of the URL pattern at its position in the message; escaping
never changes the list of URL substrings the pattern detects; and on the
concrete message `see http://example.com/a_b and x_y` the URL's underscore is
kept unescaped while the underscore of `x_y` is escaped. -/
theorem C5_url_escaping (needsEscape : List Char → Bool) (s : List Char) :
    send_chat_text needsEscape s "normal"
        = (if needsEscape ((mapEscParts false (reSplit s)).flatten)
            then [']'] else []) ++ (mapEscParts false (reSplit s)).flatten
    ∧ send_chat_text needsEscape s "action"
        = '_' :: ((mapEscParts false (reSplit s)).flatten ++ ['_'])
    ∧ (reSplit s).flatten = s
    ∧ (∀ i : ℕ, i % 2 = 1 →
        (mapEscParts false (reSplit s))[i]? = (reSplit s)[i]?)
    ∧ (∀ i : ℕ, i % 2 = 0 →
        (mapEscParts false (reSplit s))[i]? = ((reSplit s)[i]?).map escapeMd)
    ∧ (∀ p : List Char, escapeMd p = (p.map escC).flatten)
    ∧ (∀ u ∈ urlsOf s, ∃ pre suf, pre ++ (u ++ suf) = s
        ∧ matchAtSplit (u ++ suf) = some (u, suf))
    ∧ urlsOf (escapeUrlAware s) = urlsOf s
    ∧ send_chat_text (fun _ => false)
        ("see http://example.com/a_b and x_y".toList) "normal"
        = ("see http://example.com/a_b and x\\_y".toList) := by
  have hflat : escapeUrlAware s = (mapEscParts false (reSplit s)).flatten :=
    joinEscAux_eq_flat false (reSplit s)
  refine ⟨?_, ?_, reSplit_flatten s, ?_, ?_, escapeMd_eq_flat, ?_,
    urlsOf_out s, by decide⟩
  · show (if needsEscape (escapeUrlAware s) then ']' :: escapeUrlAware s
      else escapeUrlAware s) = _
    rw [hflat]
    by_cases hne : needsEscape ((mapEscParts false (reSplit s)).flatten)
    · rw [if_pos hne, if_pos hne]
      rfl
    · rw [if_neg hne, if_neg hne]
      rfl
  · show '_' :: (escapeUrlAware s ++ ['_']) = _
    rw [hflat]
  · intro i h
    rw [mapEscParts_getElem]
    cases hx : (reSplit s)[i]? with
    | none => rfl
    | some q => simp [h]
  · intro i h
    rw [mapEscParts_getElem]
    cases hx : (reSplit s)[i]? with
    | none => rfl
    | some q => simp [h]
  · exact fun u hu => urlsOf_are_matches (s.length + 1) s (Nat.lt_succ_self _) u hu

theorem C5_url_escaping_witness :
    ((1 : ℕ) % 2 = 1 ∧ (0 : ℕ) % 2 = 0)
    ∧ (mapEscParts false (reSplit ("x_y".toList)))[1]? = (reSplit ("x_y".toList))[1]?
    ∧ (mapEscParts false (reSplit ("x_y".toList)))[0]?
        = ((reSplit ("x_y".toList))[0]?).map escapeMd :=
  ⟨⟨rfl, rfl⟩,
    (C5_url_escaping (fun _ => false) ("x_y".toList)).2.2.2.1 1 rfl,
    (C5_url_escaping (fun _ => false) ("x_y".toList)).2.2.2.2.1 0 rfl⟩

/-- C3: the spec says a rate-limit rejection is logged at info level, drops
the command (returns `True`) and never raises; in the code the rejection
path evaluates the unbound names `sender` and `message` as arguments of the
log call, so it raises `NameError` instead.  The error occurs exactly when
the manager-level check rejects; the accepting path returns `False` without
raising.  Concrete failing input: `period = 10`, `limit = 1`, one recorded
timestamp `0`, second call at time `0`. -/
theorem C3_channel_timeout_raises (conf : RateConf) (times : List ℚ) (now : ℚ) :
    (channel_handle_timeout conf times now = Except.error (PyError.nameError "sender")
      ↔ (handle_timeout conf times now).1 = true)
    ∧ channel_handle_timeout ⟨10, 1⟩ [0] 0 = Except.error (PyError.nameError "sender") := by
  constructor
  · simp only [channel_handle_timeout]
    by_cases h : (handle_timeout conf times now).1
    · simp [h]
    · simp [h]
  · have h0 : (handle_timeout ⟨10, 1⟩ [0] 0).1 = true := by
      have hf : ([0] : List ℚ).filter
          (fun t => (0 : ℚ) - t < (⟨10, 1⟩ : RateConf).command_period) = [0] := by
        norm_num
      simp [handle_timeout, hf]
    simp [channel_handle_timeout, h0]

end Cerebot
